import Mathlib

/-!
Verification of the web-poet override registry, selector mixins and
serialization layer, as a shallow embedding of the Python sources
(`web_poet/overrides.py`, `web_poet/mixins.py`) and, for the serialization
module (not present in the sources, only its tests), a model built from the
specification.

Modelling conventions:
* Python class references (page-object classes) are opaque; they are
  modelled as natural numbers (`ClassRef`).
* Python dictionaries that preserve insertion order are modelled as
  association lists with unique keys.
* Keyword-metadata dictionaries (`**kwargs`) are modelled as association
  lists of string pairs, in keyword order.
* Byte blobs are modelled as character lists (`Bytes`); UTF-8 encoding of
  text is abstracted to the identity on characters.
-/

namespace WebPoet

/-- Opaque reference to a Python class (a page-object implementation). -/
abbrev ClassRef := Nat

/-- Keyword metadata mapping (`meta: Dict[str, Any]`), modelled as an
association list built from `**kwargs` (keys unique, in keyword order). -/
abbrev Meta := List (String × String)

/-- `url_matcher.Patterns` (external collaborator): a frozen value holding
`include`, `exclude` pattern lists and a `priority`, compared field-wise. -/
structure Patterns where
  include_ : List String
  exclude : List String
  priority : Int
  deriving DecidableEq, Repr

/-- `OverrideRule` from `web_poet/overrides.py`: a frozen dataclass with
fields `for_patterns`, `use`, `instead_of`, `meta`. -/
structure OverrideRule where
  for_patterns : Patterns
  use : ClassRef
  instead_of : ClassRef
  meta : Meta
  deriving DecidableEq, Repr

/-- The generated `__eq__` of the frozen dataclass `OverrideRule`: it
compares the tuple of all four fields, `meta` included. -/
def OverrideRule.pyEq (a b : OverrideRule) : Bool :=
  a.for_patterns == b.for_patterns && a.use == b.use
    && a.instead_of == b.instead_of && a.meta == b.meta

/-- The content that determines `OverrideRule.__hash__`: the explicit
`__hash__` hashes the tuple `(for_patterns, use, instead_of)`, so the hash
value is a function of exactly this triple. -/
def OverrideRule.hashTriple (r : OverrideRule) : Patterns × ClassRef × ClassRef :=
  (r.for_patterns, r.use, r.instead_of)

/-- `Strings = Union[str, Iterable[str]]` from `web_poet/overrides.py`. -/
inductive Strings where
  | str (s : String)
  | list (xs : List String)
  deriving DecidableEq, Repr

/-- `_as_list` from `web_poet/overrides.py`: `None ↦ []`, a single string
becomes a singleton, an iterable becomes its list. -/
def _as_list : Option Strings → List String
  | none => []
  | some (.str s) => [s]
  | some (.list xs) => xs

/-- The rule table `PageObjectRegistry._data : Dict[Callable, OverrideRule]`,
modelled as an insertion-ordered association list. -/
abbrev Registry := List (ClassRef × OverrideRule)

/-- `cls in self._data` (Python dict membership). -/
def dictContains (d : Registry) (k : ClassRef) : Bool :=
  d.any (fun p => p.1 == k)

/-- `self._data.get(k)` (Python dict lookup, `None` when absent). -/
def dictGet (d : Registry) (k : ClassRef) : Option OverrideRule :=
  (d.find? (fun p => p.1 == k)).map Prod.snd

/-- Result of applying the decorator produced by
`PageObjectRegistry.handle_urls(...)` to a class: the new table state,
whether the duplicate warning fired, and the decorator's return value. -/
structure HandleUrlsOutcome where
  data : Registry
  warned : Bool
  result : ClassRef
  deriving DecidableEq, Repr

/-- The rule built inside the `wrapper` closure of
`PageObjectRegistry.handle_urls`. -/
def builtRule (include_ : Strings) (overrides : ClassRef) (exclude : Option Strings)
    (priority : Int) (kwargs : Meta) (cls : ClassRef) : OverrideRule :=
  { for_patterns :=
      { include_ := _as_list (some include_)
        exclude := _as_list exclude
        priority := priority }
    use := cls
    instead_of := overrides
    meta := kwargs }

/-- `PageObjectRegistry.handle_urls` applied to a class `cls`
(`web_poet/overrides.py`, `wrapper`): build the rule; if `cls` is not yet a
key of the table, store the rule under `cls` (appending, Python dicts keep
insertion order); otherwise leave the table unchanged and warn. The
decorator always returns `cls` and never raises. -/
def PageObjectRegistry.handle_urls (data : Registry) (include_ : Strings)
    (overrides : ClassRef) (exclude : Option Strings) (priority : Int)
    (kwargs : Meta) (cls : ClassRef) : HandleUrlsOutcome :=
  let rule := builtRule include_ overrides exclude priority kwargs cls
  if !(dictContains data cls) then
    { data := data ++ [(cls, rule)], warned := false, result := cls }
  else
    { data := data, warned := true, result := cls }

/-- `PageObjectRegistry.get_overrides` on the `consume=None` path
(`if consume:` is false, so the module-import machinery — an external
collaborator that the spec puts out of scope — is not invoked): returns
`list(self._data.values())` and leaves the table as it was. The second
component is the table after the call. -/
def PageObjectRegistry.get_overrides (data : Registry) :
    List OverrideRule × Registry :=
  (data.map Prod.snd, data)

/-- The attribute names of `OverrideRule` usable as `search_overrides`
keyword filters. -/
inductive AttrKey where
  | for_patterns | use | instead_of | meta
  deriving DecidableEq, Repr

/-- A filter value for `search_overrides`: a patterns value, a class
reference, or a metadata mapping. -/
inductive AttrVal where
  | pat (p : Patterns)
  | cls (c : ClassRef)
  | metaV (m : Meta)
  deriving DecidableEq, Repr

/-- `attrgetter` on a single attribute name of an `OverrideRule`. -/
def OverrideRule.getattr (r : OverrideRule) : AttrKey → AttrVal
  | .for_patterns => .pat r.for_patterns
  | .use => .cls r.use
  | .instead_of => .cls r.instead_of
  | .meta => .metaV r.meta

/-- The `matcher` closure of `search_overrides`: the tuple of the rule's
attributes named by the filters, compared as a list against the filter
values. -/
def matcher (filters : List (AttrKey × AttrVal)) (r : OverrideRule) : Bool :=
  filters.map (fun kv => r.getattr kv.1) == filters.map Prod.snd

/-- `self._data.get(x)` where `x` is an arbitrary filter value: the table's
keys are class references, so only a class value can be found. -/
def dictGetV (d : Registry) (v : AttrVal) : Option OverrideRule :=
  match v with
  | .cls c => dictGet d c
  | _ => none

/-- The general path of `search_overrides`: filter `get_overrides()` by the
`matcher` closure. -/
def generalSearch (data : Registry) (filters : List (AttrKey × AttrVal)) :
    List OverrideRule :=
  (PageObjectRegistry.get_overrides data).1.filter (matcher filters)

/-- `PageObjectRegistry.search_overrides` (`web_poet/overrides.py`). The
keyword filters are an association list (keyword arguments have unique
keys). When the only filter key is `use`, a direct dict lookup is used;
otherwise the rules are filtered by `matcher`. With no filters at all,
`attrgetter()` raises `TypeError`, modelled as `none`. -/
def PageObjectRegistry.search_overrides (data : Registry)
    (filters : List (AttrKey × AttrVal)) : Option (List OverrideRule) :=
  match filters with
  | [] => none
  | [(.use, v)] =>
    match dictGetV data v with
    | some rule => some [rule]
    | none => some []
  | _ => some (generalSearch data filters)

/-- The registry invariant: keys are unique (it is a dict) and every stored
rule's `use` field is exactly its key. -/
def Registry.WF (d : Registry) : Prop :=
  (d.map Prod.fst).Nodup ∧ ∀ p ∈ d, p.2.use = p.1

instance (d : Registry) : Decidable (Registry.WF d) := by
  unfold Registry.WF; infer_instance

/-! Embedding of `web_poet/mixins.py`. -/

/-- A `parsel.Selector` (external collaborator): modelled as a value
remembering the text it was built from. -/
structure Selector where
  text : String
  deriving DecidableEq, Repr

/-- The mutable state of a `SelectableMixin` object: the name-mangled
`__cached_selector` attribute (class-level default `None`). -/
structure SelectableState where
  cached_selector : Option Selector
  deriving DecidableEq, Repr

/-- The `SelectableMixin.selector` property (`web_poet/mixins.py`). The
`input` argument is the string `self._selector_input()` would currently
return (implemented by the subclass). Returns the selector together with
the object state after the access: if a selector is cached it is returned
and the input is not read; otherwise a selector is built from the input
and cached. -/
def SelectableMixin.selector (st : SelectableState) (input : String) :
    Selector × SelectableState :=
  match st.cached_selector with
  | some s => (s, st)
  | none =>
    let s : Selector := { text := input }
    (s, { st with cached_selector := some s })

/-- `SelectableMixin.xpath`: delegates to `self.selector.xpath(query)`.
The model returns the selector the query was run on, paired with the
query, plus the state after the access. -/
def SelectableMixin.xpath (st : SelectableState) (input : String)
    (query : String) : (Selector × String) × SelectableState :=
  let r := SelectableMixin.selector st input
  ((r.1, query), r.2)

/-- `SelectableMixin.css`: delegates to `self.selector.css(query)`. -/
def SelectableMixin.css (st : SelectableState) (input : String)
    (query : String) : (Selector × String) × SelectableState :=
  let r := SelectableMixin.selector st input
  ((r.1, query), r.2)

/-- A URL value as passed around by `UrlMixin`: a plain string, a
`RequestUrl` or a `ResponseUrl`. -/
inductive UrlVal where
  | str (s : String)
  | requrl (s : String)
  | respurl (s : String)
  deriving DecidableEq, Repr

/-- `str(url)` on a URL value. -/
def UrlVal.toStr : UrlVal → String
  | .str s => s
  | .requrl s => s
  | .respurl s => s

/-- Whether a URL value is a `RequestUrl` instance. -/
def UrlVal.isRequestUrl : UrlVal → Bool
  | .requrl _ => true
  | _ => false

/-- `urllib.parse.urljoin` (external collaborator, modelled basically):
an input with a scheme separator is already absolute, otherwise it is
joined onto the base. The claims about `UrlMixin` do not depend on the
join's internals, only on the type of the wrapper around it. -/
def urljoin_str (base url : String) : String :=
  if url.isEmpty then base
  else if (url.splitOn "://").length > 1 then url
  else base ++ url

/-- `UrlMixin.urljoin` (`web_poet/mixins.py`): returns
`RequestUrl(urljoin(self._base_url, str(url)))`. `base_url` is the value
of the `self._base_url` property (computed via the external
`w3lib.html.get_base_url`). -/
def UrlMixin.urljoin (base_url : String) (url : UrlVal) : UrlVal :=
  UrlVal.requrl (urljoin_str base_url url.toStr)

/-!
Model of the serialization layer. The module itself is not among the
sources (only its tests are), so it is modelled from the specification:
a JSON value universe with a compact printer and a parser, per-type leaf
codecs dispatched through a registration table, and a directory codec.
-/

mutual
/-- Modelled from the spec: the universe of JSON-representable plain data
values (mappings, lists, numbers, strings, booleans, null); numbers are
restricted to integers. Arrays and objects are given by the mutually
defined list types below. -/
inductive JsonVal where
  | null
  | jbool (b : Bool)
  | jint (n : Int)
  | jstr (s : String)
  | jarr (xs : JsonArr)
  | jobj (fs : JsonObj)

/-- A JSON array: a list of JSON values. -/
inductive JsonArr where
  | nil
  | cons (v : JsonVal) (rest : JsonArr)

/-- A JSON object: an ordered association list of string keys and JSON
values. -/
inductive JsonObj where
  | nil
  | cons (k : String) (v : JsonVal) (rest : JsonObj)
end

deriving instance DecidableEq for JsonVal, JsonArr, JsonObj

/-- The decimal digit character for a digit value below ten. -/
def digitChar (n : Nat) : Char := Char.ofNat (48 + n)

/-- The digit value of a decimal digit character. -/
def digitVal (c : Char) : Nat := c.toNat - 48

/-- Whether a character is a decimal digit. -/
def isDigitC (c : Char) : Bool := 48 ≤ c.toNat && c.toNat ≤ 57

/-- Fuel-driven most-significant-first decimal printing of a natural
number; prints nothing for zero (handled by `printNat`). -/
def printNatAux : Nat → Nat → List Char
  | 0, _ => []
  | fuel+1, n => if n = 0 then [] else printNatAux fuel (n / 10) ++ [digitChar (n % 10)]

/-- Compact decimal printing of a natural number. -/
def printNat (n : Nat) : List Char :=
  if n = 0 then ['0'] else printNatAux (n + 1) n

/-- Compact decimal printing of an integer. -/
def printInt (n : Int) : List Char :=
  if n < 0 then '-' :: printNat n.natAbs else printNat n.natAbs

/-- JSON string-body escaping: a quote or backslash is preceded by a
backslash, every other character is kept as it is. -/
def escapeChars : List Char → List Char
  | [] => []
  | c :: rest =>
    if c = '"' then '\\' :: c :: escapeChars rest
    else if c = '\\' then '\\' :: c :: escapeChars rest
    else c :: escapeChars rest

/-- A JSON string literal: quote, escaped body, quote. -/
def printStr (s : String) : List Char :=
  '"' :: (escapeChars s.data ++ ['"'])

mutual
/-- Modelled from the spec: the external JSON encoder's compact printing
of a value, as a character sequence. -/
def printJson : JsonVal → List Char
  | .null => ['n', 'u', 'l', 'l']
  | .jbool true => ['t', 'r', 'u', 'e']
  | .jbool false => ['f', 'a', 'l', 's', 'e']
  | .jint n => printInt n
  | .jstr s => printStr s
  | .jarr xs => '[' :: (printArr xs ++ [']'])
  | .jobj fs => '\x7b' :: (printObj fs ++ ['\x7d'])

/-- The body of a printed array. -/
def printArr : JsonArr → List Char
  | .nil => []
  | .cons v rest => printJson v ++ printArrTail rest

/-- The comma-separated continuation of a printed array body. -/
def printArrTail : JsonArr → List Char
  | .nil => []
  | .cons v rest => ',' :: (printJson v ++ printArrTail rest)

/-- The body of a printed object. -/
def printObj : JsonObj → List Char
  | .nil => []
  | .cons k v rest => printStr k ++ ':' :: (printJson v ++ printObjTail rest)

/-- The comma-separated continuation of a printed object body. -/
def printObjTail : JsonObj → List Char
  | .nil => []
  | .cons k v rest => ',' :: (printStr k ++ ':' :: (printJson v ++ printObjTail rest))
end

mutual
/-- Fuel bound used to run the JSON parser over a printed value. -/
def jfuel : JsonVal → Nat
  | .null => 1
  | .jbool _ => 1
  | .jint _ => 1
  | .jstr _ => 1
  | .jarr xs => 1 + jfuelArr xs
  | .jobj fs => 1 + jfuelObj fs

/-- Fuel bound for an array body. -/
def jfuelArr : JsonArr → Nat
  | .nil => 1
  | .cons v rest => 1 + jfuel v + jfuelArr rest

/-- Fuel bound for an object body. -/
def jfuelObj : JsonObj → Nat
  | .nil => 1
  | .cons _ v rest => 1 + jfuel v + jfuelObj rest
end

mutual
/-- Parse the body of a JSON string literal (after the opening quote),
undoing `escapeChars`; returns the body and the input after the closing
quote. -/
def parseStrChars : List Char → Option (List Char × List Char)
  | [] => none
  | c :: rest =>
    if c = '"' then some ([], rest)
    else if c = '\\' then parseStrEsc rest
    else
      match parseStrChars rest with
      | some (s, r) => some (c :: s, r)
      | none => none

/-- Continue a string body after a backslash: the next character is
taken literally. -/
def parseStrEsc : List Char → Option (List Char × List Char)
  | [] => none
  | d :: rest =>
    match parseStrChars rest with
    | some (s, r) => some (d :: s, r)
    | none => none
end

/-- Whether a character list does not start with a decimal digit (the
text that may legally follow a printed JSON integer). -/
def noDigitHeadB : List Char → Bool
  | [] => true
  | c :: _ => !isDigitC c

/-- Consume leading decimal digits, folding them onto an accumulator. -/
def parseNatAux : List Char → Nat → Nat × List Char
  | [], acc => (acc, [])
  | c :: rest, acc =>
    if isDigitC c then parseNatAux rest (acc * 10 + digitVal c) else (acc, c :: rest)

/-- Parse a JSON integer token (optional minus sign, at least one digit). -/
def parseIntTok : List Char → Option (Int × List Char)
  | [] => none
  | c :: rest =>
    if c = '-' then
      if noDigitHeadB rest then none
      else
        let r := parseNatAux rest 0
        some (-(r.1 : Int), r.2)
    else if isDigitC c then
      let r := parseNatAux (c :: rest) 0
      some ((r.1 : Int), r.2)
    else none

/-- Recognise the tail of the `null` keyword. -/
def parseNullTok : List Char → Option (JsonVal × List Char)
  | 'u' :: 'l' :: 'l' :: r => some (.null, r)
  | _ => none

/-- Recognise the tail of the `true` keyword. -/
def parseTrueTok : List Char → Option (JsonVal × List Char)
  | 'r' :: 'u' :: 'e' :: r => some (.jbool true, r)
  | _ => none

/-- Recognise the tail of the `false` keyword. -/
def parseFalseTok : List Char → Option (JsonVal × List Char)
  | 'a' :: 'l' :: 's' :: 'e' :: r => some (.jbool false, r)
  | _ => none

/-- Expect a colon at the head of the input. -/
def expectColon : List Char → Option (List Char)
  | ':' :: r => some r
  | _ => none

mutual
/-- Modelled from the spec: the external JSON decoder, as a recursive
descent parser over the compact form, driven by explicit fuel. -/
def parseVal : Nat → List Char → Option (JsonVal × List Char)
  | 0, _ => none
  | fuel+1, cs =>
    match cs with
    | [] => none
    | c :: rest =>
      if c = 'n' then parseNullTok rest
      else if c = 't' then parseTrueTok rest
      else if c = 'f' then parseFalseTok rest
      else if c = '"' then
        (parseStrChars rest).map (fun sr => (JsonVal.jstr (String.mk sr.1), sr.2))
      else if c = '[' then parseArrBody fuel rest
      else if c = '\x7b' then parseObjBody fuel rest
      else (parseIntTok (c :: rest)).map (fun nr => (JsonVal.jint nr.1, nr.2))

/-- Parse an array body after the opening bracket. -/
def parseArrBody : Nat → List Char → Option (JsonVal × List Char)
  | 0, _ => none
  | fuel+1, cs =>
    match cs with
    | [] => none
    | c :: rest =>
      if c = ']' then some (.jarr .nil, rest)
      else
        (parseVal fuel (c :: rest)).bind (fun vr =>
          (parseArrTailP fuel vr.2).map (fun ar =>
            (JsonVal.jarr (JsonArr.cons vr.1 ar.1), ar.2)))

/-- Parse the continuation of an array body: a comma and a value, or the
closing bracket. -/
def parseArrTailP : Nat → List Char → Option (JsonArr × List Char)
  | 0, _ => none
  | fuel+1, cs =>
    match cs with
    | [] => none
    | c :: rest =>
      if c = ']' then some (.nil, rest)
      else if c = ',' then
        (parseVal fuel rest).bind (fun vr =>
          (parseArrTailP fuel vr.2).map (fun ar =>
            (JsonArr.cons vr.1 ar.1, ar.2)))
      else none

/-- Parse an object body after the opening brace. -/
def parseObjBody : Nat → List Char → Option (JsonVal × List Char)
  | 0, _ => none
  | fuel+1, cs =>
    match cs with
    | [] => none
    | c :: rest =>
      if c = '\x7d' then some (.jobj .nil, rest)
      else
        (parseObjComma fuel (c :: rest)).map (fun fr =>
          (JsonVal.jobj fr.1, fr.2))

/-- Parse the continuation of an object body: a comma and a key-value
pair, or the closing brace. -/
def parseObjTailP : Nat → List Char → Option (JsonObj × List Char)
  | 0, _ => none
  | fuel+1, cs =>
    match cs with
    | [] => none
    | c :: rest =>
      if c = '\x7d' then some (.nil, rest)
      else if c = ',' then parseObjComma fuel rest
      else none

/-- Parse one quoted key, a colon, a value, and the rest of the object
body. -/
def parseObjComma : Nat → List Char → Option (JsonObj × List Char)
  | 0, _ => none
  | fuel+1, cs =>
    match cs with
    | [] => none
    | c :: r0 =>
      if c = '"' then
        (parseStrChars r0).bind (fun kr =>
          (expectColon kr.2).bind (fun r2 =>
            (parseVal fuel r2).bind (fun vr =>
              (parseObjTailP fuel vr.2).map (fun fr =>
                (JsonObj.cons (String.mk kr.1) vr.1 fr.1, fr.2)))))
      else none
end

/-- Byte blobs, modelled as character sequences. -/
abbrev Bytes := List Char

/-- `SerializedLeafData`: a mapping from a short format key to a byte
blob, modelled as an association list. -/
abbrev SerializedLeafData := List (String × Bytes)

/-- Modelled from the spec: the external JSON encoder applied to a value
(compact form, UTF-8 abstracted to characters). -/
def encodeJson (v : JsonVal) : Bytes := printJson v

/-- Modelled from the spec: the external JSON decoder; fails unless the
whole input is one JSON value. -/
def decodeJson (bs : Bytes) : Option JsonVal :=
  match parseVal (2 * bs.length + 2) bs with
  | some (v, rest) => if rest.isEmpty then some v else none
  | none => none

/-- A structured HTTP-response-like value (external collaborator,
consumed as an opaque typed value with known fields): URL, raw body,
nullable status, ordered multi-valued headers, and the optional declared
encoding (`None` meaning "not specified"). -/
structure HttpResponseV where
  url : String
  body : Bytes
  status : Option Int
  headers : List (String × List String)
  encoding : Option String
  deriving DecidableEq

/-- Modelled from the spec: the universe of values handled by the leaf
serializer: plain JSON-able data, HTTP responses, the two URL subtypes,
and instances of user-registered custom types (opaque payload). -/
inductive PyVal where
  | data (j : JsonVal)
  | resp (r : HttpResponseV)
  | requrl (u : String)
  | respurl (u : String)
  | custom (t : String) (payload : Nat)
  deriving DecidableEq

/-- Modelled from the spec: the concrete runtime types that codec lookup
dispatches on. -/
inductive PyType where
  | dataT
  | httpResponseT
  | requestUrlT
  | responseUrlT
  | customT (t : String)
  deriving DecidableEq

/-- `type(value)`: the exact runtime type of a value. -/
def PyVal.type_of : PyVal → PyType
  | .data _ => .dataT
  | .resp _ => .httpResponseT
  | .requrl _ => .requestUrlT
  | .respurl _ => .responseUrlT
  | .custom t _ => .customT t

/-- A codec registration entry: one (serialize, deserialize) function
pair; a function returns `none` where the Python one would raise. -/
structure Codec where
  ser : PyVal → Option SerializedLeafData
  deser : SerializedLeafData → Option PyVal

/-- The process-wide codec table, most recent registration first. -/
abbrev CodecTable := List (PyType × Codec)

/-- Codec lookup by exact type: the most recent registration for the type
wins; no inheritance-based fallback. -/
def lookupCodec (tab : CodecTable) (t : PyType) : Option Codec :=
  (tab.find? (fun e => e.1 == t)).map Prod.snd

/-- `register_serialization`: stores the codec pair for a type; a later
registration for the same type replaces the earlier one (it is found
first). -/
def register_serialization (tab : CodecTable) (t : PyType) (c : Codec) : CodecTable :=
  (t, c) :: tab

/-- Lookup of a format key in a leaf-data mapping. -/
def ldLookup (ld : SerializedLeafData) (k : String) : Option Bytes :=
  (ld.find? (fun p => p.1 == k)).map Prod.snd

/-- Serializer of the generic JSON-representable data codec:
`{"json": <compact JSON bytes>}`. -/
def dataSer : PyVal → Option SerializedLeafData
  | .data j => some [("json", encodeJson j)]
  | _ => none

/-- Deserializer of the generic data codec: JSON-decode the bytes under
the `json` key. -/
def dataDeser (ld : SerializedLeafData) : Option PyVal :=
  match ldLookup ld "json" with
  | some bs => (decodeJson bs).map PyVal.data
  | none => none

/-- Serializer of the request-URL codec: `{"txt": <URL bytes>}`. -/
def requrlSer : PyVal → Option SerializedLeafData
  | .requrl u => some [("txt", u.data)]
  | _ => none

/-- Deserializer of the request-URL codec: pass the decoded string to the
`RequestUrl` constructor, restoring the exact URL subtype. -/
def requrlDeser (ld : SerializedLeafData) : Option PyVal :=
  (ldLookup ld "txt").map (fun bs => PyVal.requrl (String.mk bs))

/-- Serializer of the response-URL codec: `{"txt": <URL bytes>}`. -/
def respurlSer : PyVal → Option SerializedLeafData
  | .respurl u => some [("txt", u.data)]
  | _ => none

/-- Deserializer of the response-URL codec: pass the decoded string to
the `ResponseUrl` constructor. -/
def respurlDeser (ld : SerializedLeafData) : Option PyVal :=
  (ldLookup ld "txt").map (fun bs => PyVal.respurl (String.mk bs))

/-- Modelled from the spec: whether a body looks like renderable markup
(choosing the `html` body extension). -/
def looksMarkup (b : Bytes) : Bool := b.contains '<'

/-- The body-file extension chosen by the HTTP-response serializer:
`html` unless the body does not look like markup, then a generic one. -/
def bodyExt (b : Bytes) : String := if looksMarkup b then "html" else "txt"

/-- A JSON array of strings. -/
def strArr : List String → JsonArr
  | [] => .nil
  | s :: rest => .cons (JsonVal.jstr s) (strArr rest)

/-- The JSON object carrying the headers mapping (header name to ordered
list of values). -/
def headersJsonObj : List (String × List String) → JsonObj
  | [] => .nil
  | (k, vs) :: rest => .cons k (JsonVal.jarr (strArr vs)) (headersJsonObj rest)

/-- A nullable integer as JSON. -/
def optIntJson : Option Int → JsonVal
  | none => .null
  | some n => .jint n

/-- A nullable string as JSON. -/
def optStrJson : Option String → JsonVal
  | none => .null
  | some s => .jstr s

/-- The `other.json` metadata of a serialized HTTP response: URL, status,
headers, encoding. -/
def respMetaJson (r : HttpResponseV) : JsonVal :=
  .jobj (.cons "url" (.jstr r.url)
    (.cons "status" (optIntJson r.status)
      (.cons "headers" (.jobj (headersJsonObj r.headers))
        (.cons "encoding" (optStrJson r.encoding) .nil))))

/-- Serializer of the HTTP-response codec:
`{"body.<ext>": <body bytes>, "other.json": <metadata JSON bytes>}`. -/
def respSer : PyVal → Option SerializedLeafData
  | .resp r =>
    some [("body." ++ bodyExt r.body, r.body),
          ("other.json", encodeJson (respMetaJson r))]
  | _ => none

/-- Key lookup in a JSON object. -/
def objLookup : JsonObj → String → Option JsonVal
  | .nil, _ => none
  | .cons k v rest, key => if k == key then some v else objLookup rest key

/-- Read a nullable integer back from JSON. -/
def jsonOptInt : JsonVal → Option (Option Int)
  | .null => some none
  | .jint n => some (some n)
  | _ => none

/-- Read a nullable string back from JSON. -/
def jsonOptStr : JsonVal → Option (Option String)
  | .null => some none
  | .jstr s => some (some s)
  | _ => none

/-- Read a string list back from a JSON array. -/
def jsonStrList : JsonArr → Option (List String)
  | .nil => some []
  | .cons v rest =>
    match v with
    | .jstr s => (jsonStrList rest).map (fun l => s :: l)
    | _ => none

/-- Read the headers mapping back from its JSON object. -/
def jsonHeaders : JsonObj → Option (List (String × List String))
  | .nil => some []
  | .cons k v rest =>
    match v with
    | .jarr xs =>
      match jsonStrList xs, jsonHeaders rest with
      | some vs, some hs => some ((k, vs) :: hs)
      | _, _ => none
    | _ => none

/-- Locate the serialized body entry under its `body.<ext>` key (the
model checks the two extensions the serializer emits). -/
def findBody (ld : SerializedLeafData) : Option Bytes :=
  match ldLookup ld "body.html" with
  | some b => some b
  | none => ldLookup ld "body.txt"

/-- Deserializer of the HTTP-response codec: reconstruct the response
from the body bytes, URL, status, headers and encoding, preserving the
encoding exactly (including the not-specified state). -/
def respDeser (ld : SerializedLeafData) : Option PyVal :=
  match findBody ld, ldLookup ld "other.json" with
  | some body, some mb =>
    match decodeJson mb with
    | some (.jobj fields) =>
      match objLookup fields "url", objLookup fields "status",
            objLookup fields "headers", objLookup fields "encoding" with
      | some (.jstr url), some sj, some (.jobj hj), some ej =>
        match jsonOptInt sj, jsonHeaders hj, jsonOptStr ej with
        | some status, some headers, some enc =>
          some (.resp { url := url, body := body, status := status,
                        headers := headers, encoding := enc })
        | _, _, _ => none
      | _, _, _, _ => none
    | _ => none
  | _, _ => none

/-- The built-in codecs, pre-registered at process start. -/
def builtinTable : CodecTable :=
  [(.dataT, ⟨dataSer, dataDeser⟩),
   (.httpResponseT, ⟨respSer, respDeser⟩),
   (.requestUrlT, ⟨requrlSer, requrlDeser⟩),
   (.responseUrlT, ⟨respurlSer, respurlDeser⟩)]

/-- `serialize_leaf`: look up the codec for the exact runtime type of the
value and invoke its serialize function; `none` models the
`NotImplementedError` for an unsupported type. -/
def serialize_leaf (tab : CodecTable) (v : PyVal) : Option SerializedLeafData :=
  match lookupCodec tab v.type_of with
  | some c => c.ser v
  | none => none

/-- `deserialize_leaf`: look up the codec for the declared target type
and invoke its deserialize function. -/
def deserialize_leaf (tab : CodecTable) (t : PyType) (ld : SerializedLeafData) :
    Option PyVal :=
  match lookupCodec tab t with
  | some c => c.deser ld
  | none => none

/-- The spec's invariant on codec registrations: the serialize and
deserialize functions of one registration are used together, and the
deserializer reconstructs every value of the registration's type that the
serializer accepts. -/
def CodecTable.WF (tab : CodecTable) : Prop :=
  ∀ t c, lookupCodec tab t = some c →
    ∀ v, v.type_of = t → ∀ ld, c.ser v = some ld → c.deser ld = some v

/-!
Directory codec (`write_serialized_data` / `read_serialized_data`),
modelled from the spec. A directory is an association list from file name
to raw content, in creation order.
-/

/-- `SerializedTree`: a mapping from type name to leaf data. -/
abbrev SerializedTree := List (String × SerializedLeafData)

/-- A directory: file name to raw byte content. -/
abbrev Directory := List (String × Bytes)

/-- Whether a character list contains a character. -/
def charsContains : List Char → Char → Bool
  | [], _ => false
  | c :: rest, x => (c == x) || charsContains rest x

/-- Whether a string contains a character. -/
def strContains (s : String) (c : Char) : Bool := charsContains s.data c

/-- String concatenation through the underlying character lists. -/
def strCat (a b : String) : String := String.mk (a.data ++ b.data)

/-- Modelled from the spec: the directory-codec file name for a tree
entry and format key: `<type_name>-<key>` when the key contains a dot,
`<type_name>.<key>` otherwise. -/
def entryFileName (tn key : String) : String :=
  if strContains key '.' then strCat tn (strCat (String.mk ['-']) key)
  else strCat tn (strCat (String.mk ['.']) key)

/-- Write one file, overwriting an existing one of the same name. -/
def dirWrite (d : Directory) (name : String) (content : Bytes) : Directory :=
  if d.any (fun p => p.1 == name) then
    d.map (fun p => if p.1 == name then (name, content) else p)
  else d ++ [(name, content)]

/-- One step of directory writing: write every file of one tree entry. -/
def writeStep (d : Directory) (e : String × SerializedLeafData) : Directory :=
  e.2.foldl (fun d2 kv => dirWrite d2 (entryFileName e.1 kv.1) kv.2) d

/-- Modelled from the spec: `write_serialized_data` writes one file per
tree entry and format key into the directory. -/
def write_serialized_data (tree : SerializedTree) (dir : Directory) : Directory :=
  tree.foldl writeStep dir

/-- Split a character list at the first occurrence of a separator; when
the separator does not occur the whole input is the first component. -/
def splitCharsOnFirst : List Char → Char → List Char × List Char
  | [], _ => ([], [])
  | c :: rest, sep =>
    if c = sep then ([], rest)
    else
      let r := splitCharsOnFirst rest sep
      (c :: r.1, r.2)

/-- Modelled from the spec: recover `(type_name, format_key)` from a file
name by splitting on the first `-` when one is present, else on the first
`.`. -/
def splitFileName (f : String) : String × String :=
  if strContains f '-' then
    let r := splitCharsOnFirst f.data '-'
    (String.mk r.1, String.mk r.2)
  else
    let r := splitCharsOnFirst f.data '.'
    (String.mk r.1, String.mk r.2)

/-- Add one recovered `(type_name, key, content)` triple to a tree being
rebuilt: append to the existing entry for the type name, or append a new
entry. -/
def treeAdd : SerializedTree → String → String → Bytes → SerializedTree
  | [], tn, k, b => [(tn, [(k, b)])]
  | (t, leaf) :: rest, tn, k, b =>
    if t == tn then (t, leaf ++ [(k, b)]) :: rest
    else (t, leaf) :: treeAdd rest tn k b

/-- One step of directory reading: recover the type name and format key
from the file name and add the triple to the tree being rebuilt. -/
def readStep (tr : SerializedTree) (f : String × Bytes) : SerializedTree :=
  let s := splitFileName f.1
  treeAdd tr s.1 s.2 f.2

/-- Modelled from the spec: `read_serialized_data` scans the directory
and reassembles the two-level mapping. -/
def read_serialized_data (dir : Directory) : SerializedTree :=
  dir.foldl readStep []

/-- The files one tree entry contributes to the directory. -/
def leafFiles (tn : String) (leaf : SerializedLeafData) : List (String × Bytes) :=
  leaf.map (fun kv => (entryFileName tn kv.1, kv.2))

/-- All files a tree contributes to the directory, entry by entry. -/
def treeFiles : SerializedTree → List (String × Bytes)
  | [] => []
  | e :: rest => leafFiles e.1 e.2 ++ treeFiles rest

/-- The (type name, format key) pairs of a tree, entry by entry. -/
def treePairs : SerializedTree → List (String × String)
  | [] => []
  | e :: rest => e.2.map (fun kv => (e.1, kv.1)) ++ treePairs rest

/-- A type name usable by the directory codec: it contains neither the
dash nor the dot used as separators. -/
def goodName (s : String) : Bool := !(strContains s '-') && !(strContains s '.')

/-- A format key whose file name round-trips: it contains a dot, or it
contains no dash. -/
def goodKey (k : String) : Bool := strContains k '.' || !(strContains k '-')

/-- A serialized tree the directory codec can round-trip: unique type
names that avoid the separator characters, and non-empty leaf data with
unique, round-trippable keys. -/
def TreeOK (tree : SerializedTree) : Prop :=
  (tree.map Prod.fst).Nodup ∧
    ∀ e ∈ tree, goodName e.1 = true ∧ e.2 ≠ [] ∧
      (e.2.map Prod.fst).Nodup ∧ ∀ kv ∈ e.2, goodKey kv.1 = true

instance (tree : SerializedTree) : Decidable (TreeOK tree) := by
  unfold TreeOK; infer_instance

/-! Theorems. First, the override-rule equality and hash claims. -/

/-- C1, counterexample: two rules agreeing on `(for_patterns, use,
instead_of)` but with different `meta` have equal hash content, yet the
generated dataclass equality (which compares all four fields) does not
hold, contradicting the claim that equality is determined only by the
triple. -/
theorem C1_counterexample :
    OverrideRule.hashTriple
        { for_patterns := ⟨[], [], 500⟩, use := 0, instead_of := 1, meta := [] }
      = OverrideRule.hashTriple
        { for_patterns := ⟨[], [], 500⟩, use := 0, instead_of := 1,
          meta := [("note", "x")] }
    ∧ OverrideRule.pyEq
        { for_patterns := ⟨[], [], 500⟩, use := 0, instead_of := 1, meta := [] }
        { for_patterns := ⟨[], [], 500⟩, use := 0, instead_of := 1,
          meta := [("note", "x")] }
      = false := by
  decide

/-- C1 (amended): `OverrideRule.__eq__` (the dataclass-generated one)
holds exactly when all four fields agree, `meta` included; the hash is
determined only by the `(for_patterns, use, instead_of)` triple, so two
rules differing only in `meta` always have equal hashes, but they are
equal only when their `meta` mappings agree. -/
theorem C1_amended_eq_hash (r1 r2 : OverrideRule) (m1 m2 : Meta) :
    (OverrideRule.pyEq r1 r2 = true ↔ r1 = r2)
    ∧ OverrideRule.hashTriple { r1 with meta := m1 }
        = OverrideRule.hashTriple { r1 with meta := m2 }
    ∧ (OverrideRule.pyEq { r1 with meta := m1 } { r1 with meta := m2 } = true
        ↔ m1 = m2) := by
  refine ⟨?_, rfl, ?_⟩
  · constructor
    · intro hEq
      unfold OverrideRule.pyEq at hEq
      simp only [Bool.and_eq_true, beq_iff_eq] at hEq
      cases r1; cases r2
      simp_all
    · rintro rfl
      unfold OverrideRule.pyEq
      simp
  · unfold OverrideRule.pyEq
    simp [Bool.and_eq_true, beq_iff_eq]

/-- Membership in the rule table is membership among its keys. -/
theorem dictContains_iff (d : Registry) (k : ClassRef) :
    dictContains d k = true ↔ k ∈ d.map Prod.fst := by
  unfold dictContains
  simp only [List.any_eq_true, List.mem_map, beq_iff_eq]

/-- C2: applying a `handle_urls` decorator to a class `cls` that already
has a stored rule leaves the rule table completely unchanged and emits
the duplicate warning (and, the model being a total function, does not
raise); when no rule is stored for `cls`, the rule built from the
`include`, `exclude`, `priority` and extra keyword arguments is stored
under key `cls` and no warning is emitted. -/
theorem C2_handle_urls_first_wins (data : Registry) (include_ : Strings)
    (overrides : ClassRef) (exclude : Option Strings) (priority : Int)
    (kwargs : Meta) (cls : ClassRef) :
    (dictContains data cls = true →
      (PageObjectRegistry.handle_urls data include_ overrides exclude priority
          kwargs cls).data = data
      ∧ (PageObjectRegistry.handle_urls data include_ overrides exclude priority
          kwargs cls).warned = true)
    ∧ (dictContains data cls = false →
      (PageObjectRegistry.handle_urls data include_ overrides exclude priority
          kwargs cls).data
        = data ++ [(cls, builtRule include_ overrides exclude priority kwargs cls)]
      ∧ (PageObjectRegistry.handle_urls data include_ overrides exclude priority
          kwargs cls).warned = false) := by
  unfold PageObjectRegistry.handle_urls
  constructor
  · intro h; simp [h]
  · intro h; simp [h]

/-- C2, witness: a duplicate registration for key `0` is ignored with a
warning, and a registration into an empty registry is stored. -/
theorem C2_witness :
    ((PageObjectRegistry.handle_urls
        [(0, builtRule (.str "a.com") 1 none 500 [] 0)]
        (.str "b.com") 2 none 300 [] 0).data
      = [(0, builtRule (.str "a.com") 1 none 500 [] 0)]
      ∧ (PageObjectRegistry.handle_urls
          [(0, builtRule (.str "a.com") 1 none 500 [] 0)]
          (.str "b.com") 2 none 300 [] 0).warned = true)
    ∧ ((PageObjectRegistry.handle_urls [] (.str "a.com") 1 none 500 [] 0).data
      = [(0, builtRule (.str "a.com") 1 none 500 [] 0)]
      ∧ (PageObjectRegistry.handle_urls [] (.str "a.com") 1 none 500 [] 0).warned
        = false) :=
  ⟨(C2_handle_urls_first_wins
      [(0, builtRule (.str "a.com") 1 none 500 [] 0)]
      (.str "b.com") 2 none 300 [] 0).1 (by decide),
   (C2_handle_urls_first_wins [] (.str "a.com") 1 none 500 [] 0).2 (by decide)⟩

/-- C3: the registry invariant — unique keys, and every stored rule's
`use` field equal to its key — is preserved by `handle_urls`
registration, and `get_overrides` (on the `consume=None` path) leaves the
rule table unchanged, hence well-formed; `search_overrides` does not
touch the table at all in the embedding. -/
theorem C3_registry_invariant (data : Registry) (h : Registry.WF data)
    (include_ : Strings) (overrides : ClassRef) (exclude : Option Strings)
    (priority : Int) (kwargs : Meta) (cls : ClassRef) :
    Registry.WF (PageObjectRegistry.handle_urls data include_ overrides exclude
        priority kwargs cls).data
    ∧ (PageObjectRegistry.get_overrides data).2 = data
    ∧ Registry.WF (PageObjectRegistry.get_overrides data).2 := by
  refine ⟨?_, rfl, h⟩
  unfold PageObjectRegistry.handle_urls
  cases hc : dictContains data cls
  · simp only [hc, Bool.not_false, if_true]
    obtain ⟨hnd, huse⟩ := h
    constructor
    · rw [List.map_append]
      simp only [List.map_cons, List.map_nil]
      rw [List.nodup_append]
      refine ⟨hnd, List.nodup_singleton _, ?_⟩
      intro a ha hb
      simp only [List.mem_singleton] at hb
      rw [hb] at ha
      have hcc : dictContains data cls = true := (dictContains_iff data cls).mpr ha
      rw [hc] at hcc
      exact Bool.noConfusion hcc
    · intro p hp
      rcases List.mem_append.mp hp with hin | hnew
      · exact huse p hin
      · simp only [List.mem_singleton] at hnew
        subst hnew
        rfl
  · simp only [hc, Bool.not_true, Bool.false_eq_true, if_false]
    exact h

/-- C3, witness: the invariant holds after registering a second class
into a well-formed one-entry registry. -/
theorem C3_witness :
    Registry.WF (PageObjectRegistry.handle_urls
        [(5, builtRule (.str "a") 1 none 500 [] 5)]
        (.str "b") 2 none 500 [] 6).data :=
  (C3_registry_invariant [(5, builtRule (.str "a") 1 none 500 [] 5)] (by decide)
    (.str "b") 2 none 500 [] 6).1

/-- Maps of one list agree exactly when the functions agree on its
members. -/
theorem map_eq_map_iff_forall {α β : Type} (f g : α → β) (l : List α) :
    l.map f = l.map g ↔ ∀ x ∈ l, f x = g x := by
  induction l with
  | nil => simp
  | cons a l ih => simp [ih]

/-- The `matcher` closure accepts exactly the rules whose named
attributes all equal the corresponding filter values. -/
theorem matcher_eq_true_iff (filters : List (AttrKey × AttrVal)) (r : OverrideRule) :
    matcher filters r = true ↔ ∀ kv ∈ filters, r.getattr kv.1 = kv.2 := by
  unfold matcher
  rw [beq_iff_eq, map_eq_map_iff_forall]

/-- The matcher for the single filter `use = c` tests `r.use == c`. -/
theorem matcher_use_cls (c : ClassRef) (r : OverrideRule) :
    matcher [(AttrKey.use, AttrVal.cls c)] r = (r.use == c) := by
  unfold matcher
  simp only [List.map_cons, List.map_nil]
  by_cases h : r.use = c
  · simp [OverrideRule.getattr, h]
  · have h1 : ([r.getattr AttrKey.use] == [AttrVal.cls c]) = false := by
      rw [beq_eq_false_iff_ne]
      simp [OverrideRule.getattr, h]
    have h2 : (r.use == c) = false := by
      rw [beq_eq_false_iff_ne]; exact h
    rw [h1, h2]

/-- The matcher for a single `use` filter whose value is not a class
reference rejects every rule. -/
theorem matcher_use_nonclass_false (v : AttrVal) (hv : ∀ c, v ≠ AttrVal.cls c)
    (r : OverrideRule) : matcher [(AttrKey.use, v)] r = false := by
  cases hm : matcher [(AttrKey.use, v)] r
  · rfl
  · exfalso
    have hval := (matcher_eq_true_iff [(AttrKey.use, v)] r).mp hm
      (AttrKey.use, v) (List.mem_singleton_self _)
    exact hv r.use hval.symm

/-- A filter by an everywhere-false predicate is empty. -/
theorem filter_false_eq_nil {α : Type} (p : α → Bool) (l : List α)
    (h : ∀ x ∈ l, p x = false) : l.filter p = [] := by
  induction l with
  | nil => rfl
  | cons a l ih =>
    rw [List.filter_cons, h a (List.mem_cons_self a l)]
    simp only [Bool.false_eq_true, if_false]
    exact ih (fun x hx => h x (List.mem_cons_of_mem a hx))

/-- Dict lookup of an absent key yields nothing. -/
theorem dictGet_none (d : Registry) (k : ClassRef) (h : k ∉ d.map Prod.fst) :
    dictGet d k = none := by
  unfold dictGet
  cases hf : d.find? (fun p => p.1 == k) with
  | none => rfl
  | some p =>
    exfalso
    have hmem := List.mem_of_find?_eq_some hf
    have hpk := List.find?_some hf
    rw [beq_iff_eq] at hpk
    exact h (hpk ▸ List.mem_map_of_mem Prod.fst hmem)

/-- On a well-formed table, filtering the stored rules by
`rule.use == c` yields exactly the result of the direct dict lookup at
key `c`. -/
theorem filter_use_eq_dictGet (data : Registry) (hnd : (data.map Prod.fst).Nodup)
    (huse : ∀ p ∈ data, p.2.use = p.1) (c : ClassRef) :
    (data.map Prod.snd).filter (fun r => r.use == c)
      = match dictGet data c with
        | some rule => [rule]
        | none => [] := by
  induction data with
  | nil => simp [dictGet]
  | cons p rest ih =>
    have hpu : p.2.use = p.1 := huse p (List.mem_cons_self p rest)
    simp only [List.map_cons] at hnd
    rw [List.nodup_cons] at hnd
    obtain ⟨hfst, hndr⟩ := hnd
    have ihr := ih hndr (fun q hq => huse q (List.mem_cons_of_mem p hq))
    by_cases hc : p.1 = c
    · have hdg : dictGet (p :: rest) c = some p.2 := by
        unfold dictGet
        rw [List.find?_cons_of_pos _ (by simp [hc])]
        rfl
      rw [hdg]
      have hdgr : dictGet rest c = none :=
        dictGet_none rest c (fun hmem => hfst (hc ▸ hmem))
      rw [hdgr] at ihr
      simp only [List.map_cons]
      rw [List.filter_cons]
      have : (p.2.use == c) = true := by rw [beq_iff_eq, hpu]; exact hc
      rw [this]
      simp only [if_true]
      rw [ihr]
    · have hdg : dictGet (p :: rest) c = dictGet rest c := by
        unfold dictGet
        rw [List.find?_cons_of_neg _ (by simp [hc])]
      rw [hdg, ← ihr]
      simp only [List.map_cons]
      rw [List.filter_cons]
      have : (p.2.use == c) = false := by
        rw [beq_eq_false_iff_ne, hpu]; exact hc
      rw [this]
      simp

/-- C4: on a well-formed registry, `search_overrides` agrees with the
general path for every non-empty keyword filter — in particular the
`use`-only fast path (direct key lookup) returns exactly what filtering
all stored rules would return — and the general path returns exactly the
stored rules whose named attributes all equal the given filter values. -/
theorem C4_search_overrides (data : Registry) (hwf : Registry.WF data)
    (filters : List (AttrKey × AttrVal)) (hne : filters ≠ []) :
    PageObjectRegistry.search_overrides data filters
        = some (generalSearch data filters)
    ∧ ∀ r, r ∈ generalSearch data filters ↔
        r ∈ (PageObjectRegistry.get_overrides data).1
          ∧ ∀ kv ∈ filters, r.getattr kv.1 = kv.2 := by
  obtain ⟨hnd, huse⟩ := hwf
  constructor
  · cases filters with
    | nil => exact absurd rfl hne
    | cons kv1 rest1 =>
      cases rest1 with
      | cons kv2 rest2 =>
        obtain ⟨k1, v1⟩ := kv1
        cases k1 <;> rfl
      | nil =>
        obtain ⟨k, v⟩ := kv1
        cases k with
        | for_patterns => rfl
        | instead_of => rfl
        | meta => rfl
        | use =>
          show (match dictGetV data v with
                | some rule => some [rule]
                | none => some []) = _
          cases v with
          | pat p =>
            have hnilf : generalSearch data [(AttrKey.use, AttrVal.pat p)] = [] :=
              filter_false_eq_nil _ _ (fun r _ =>
                matcher_use_nonclass_false _ (fun c h => AttrVal.noConfusion h) r)
            rw [hnilf]
            rfl
          | metaV m =>
            have hnilf : generalSearch data [(AttrKey.use, AttrVal.metaV m)] = [] :=
              filter_false_eq_nil _ _ (fun r _ =>
                matcher_use_nonclass_false _ (fun c h => AttrVal.noConfusion h) r)
            rw [hnilf]
            rfl
          | cls c =>
            show (match dictGet data c with
                  | some rule => some [rule]
                  | none => some []) = _
            have hfil : generalSearch data [(AttrKey.use, AttrVal.cls c)]
                = (data.map Prod.snd).filter (fun r => r.use == c) := by
              unfold generalSearch PageObjectRegistry.get_overrides
              exact List.filter_congr (fun r _ => matcher_use_cls c r)
            rw [hfil, filter_use_eq_dictGet data hnd huse c]
            cases dictGet data c <;> rfl
  · intro r
    simp only [generalSearch, List.mem_filter, matcher_eq_true_iff]

/-- C4, witness: a two-entry registry searched by `use = 1`. -/
theorem C4_witness :
    PageObjectRegistry.search_overrides
        [(1, builtRule (.str "a") 8 none 500 [] 1),
         (2, builtRule (.str "b") 9 none 500 [] 2)]
        [(AttrKey.use, AttrVal.cls 1)]
      = some (generalSearch
          [(1, builtRule (.str "a") 8 none 500 [] 1),
           (2, builtRule (.str "b") 9 none 500 [] 2)]
          [(AttrKey.use, AttrVal.cls 1)]) :=
  (C4_search_overrides
    [(1, builtRule (.str "a") 8 none 500 [] 1),
     (2, builtRule (.str "b") 9 none 500 [] 2)]
    (by decide) [(AttrKey.use, AttrVal.cls 1)] (by decide)).1

/-- C5: `get_overrides` with `consume=None` returns exactly the stored
rules, one per stored key, in the insertion order of the underlying
table, and leaves the rule table unchanged. -/
theorem C5_get_overrides (data : Registry) :
    (PageObjectRegistry.get_overrides data).2 = data
    ∧ ((PageObjectRegistry.get_overrides data).1).length = data.length
    ∧ ∀ i : Nat, ((PageObjectRegistry.get_overrides data).1)[i]?
        = (data[i]?).map Prod.snd := by
  refine ⟨rfl, by simp [PageObjectRegistry.get_overrides], ?_⟩
  intro i
  simp [PageObjectRegistry.get_overrides]

/-- C8: the decorator produced by `handle_urls` returns the decorated
class itself, both when the registration is stored and when it is
ignored as a duplicate. -/
theorem C8_decorator_returns_cls (data : Registry) (include_ : Strings)
    (overrides : ClassRef) (exclude : Option Strings) (priority : Int)
    (kwargs : Meta) (cls : ClassRef) :
    (PageObjectRegistry.handle_urls data include_ overrides exclude priority
        kwargs cls).result = cls := by
  unfold PageObjectRegistry.handle_urls
  by_cases hc : dictContains data cls <;> simp [hc]

/-- C9: the `selector` property is computed at most once per object: a
first access on a fresh state builds the selector from the current
`_selector_input()` value and caches it; any access on a cached state
returns the identical cached selector and leaves the state unchanged,
regardless of the current input; hence a repeated access returns exactly
the first access's selector, and `xpath`/`css` run their query on the
same selector the `selector` property yields. -/
theorem C9_selector_cached (st : SelectableState) (input input2 query : String) :
    (st.cached_selector = none →
      (SelectableMixin.selector st input).1 = { text := input }
      ∧ (SelectableMixin.selector st input).2.cached_selector
          = some { text := input })
    ∧ (∀ s, st.cached_selector = some s →
        SelectableMixin.selector st input = (s, st))
    ∧ SelectableMixin.selector (SelectableMixin.selector st input).2 input2
        = ((SelectableMixin.selector st input).1,
           (SelectableMixin.selector st input).2)
    ∧ (SelectableMixin.xpath st input query).1
        = ((SelectableMixin.selector st input).1, query)
    ∧ (SelectableMixin.css st input query).1
        = ((SelectableMixin.selector st input).1, query) := by
  unfold SelectableMixin.xpath SelectableMixin.css SelectableMixin.selector
  cases h : st.cached_selector <;> simp_all

/-- C9, witness: concrete first and repeated accesses. -/
theorem C9_witness :
    ((SelectableMixin.selector { cached_selector := none } "x").1
        = { text := "x" }
      ∧ (SelectableMixin.selector
          { cached_selector := none } "x").2.cached_selector
        = some { text := "x" })
    ∧ SelectableMixin.selector { cached_selector := some { text := "y" } } "x"
        = ({ text := "y" }, { cached_selector := some { text := "y" } }) :=
  ⟨(C9_selector_cached { cached_selector := none } "x" "x2" "q").1 rfl,
   (C9_selector_cached { cached_selector := some { text := "y" } } "x" "x2"
      "q").2.1 { text := "y" } rfl⟩

/-- C10: `UrlMixin.urljoin` always returns a `RequestUrl` value,
whatever the type of its input URL (plain string, request URL or
response URL) and whatever the base URL is. -/
theorem C10_urljoin_requesturl (base_url : String) (url : UrlVal) :
    (UrlMixin.urljoin base_url url).isRequestUrl = true := rfl

/-! Round-trip lemmas for the JSON printer and parser. -/

/-- Digit characters carry their digit values. -/
theorem digit_facts : ∀ m : Nat, m < 10 →
    isDigitC (digitChar m) = true ∧ digitVal (digitChar m) = m := by decide

/-- A digit differs from every non-digit character. -/
theorem isDigitC_ne (c d : Char) (h : isDigitC c = true) (hd : isDigitC d = false) :
    c ≠ d := by
  intro he
  subst he
  rw [h] at hd
  exact Bool.noConfusion hd

/-- Digit folding stops immediately on a non-digit head. -/
theorem parseNatAux_noDigit (cs : List Char) (acc : Nat) (h : noDigitHeadB cs = true) :
    parseNatAux cs acc = (acc, cs) := by
  cases cs with
  | nil => rfl
  | cons c rest =>
    unfold noDigitHeadB at h
    rw [Bool.not_eq_true'] at h
    unfold parseNatAux
    rw [h]
    simp

/-- Folding the printed digits of `n` onto an accumulator shifts the
accumulator by the number of digits and adds `n`. -/
theorem parseNatAux_printNatAux (fuel : Nat) :
    ∀ n acc rest, n ≤ fuel →
      parseNatAux (printNatAux fuel n ++ rest) acc
        = parseNatAux rest (acc * 10 ^ (printNatAux fuel n).length + n) := by
  induction fuel with
  | zero =>
    intro n acc rest hn
    have h0 : n = 0 := Nat.le_zero.mp hn
    subst h0
    simp [printNatAux]
  | succ fuel ih =>
    intro n acc rest hn
    by_cases h0 : n = 0
    · subst h0
      simp [printNatAux]
    · rw [printNatAux, if_neg h0, List.append_assoc]
      have hdiv : n / 10 ≤ fuel := by
        have := Nat.div_lt_self (Nat.pos_of_ne_zero h0) (by norm_num : 1 < 10)
        omega
      rw [ih (n / 10) acc _ hdiv]
      have hd := digit_facts (n % 10) (Nat.mod_lt _ (by norm_num))
      rw [List.singleton_append, parseNatAux, hd.1]
      simp only [if_true, hd.2]
      have harg : (acc * 10 ^ (printNatAux fuel (n / 10)).length + n / 10) * 10 + n % 10
          = acc * 10 ^ (printNatAux fuel (n / 10)).length * 10 + n := by
        have h1 : n / 10 * 10 + n % 10 = n := by omega
        calc (acc * 10 ^ (printNatAux fuel (n / 10)).length + n / 10) * 10 + n % 10
            = acc * 10 ^ (printNatAux fuel (n / 10)).length * 10
                + (n / 10 * 10 + n % 10) := by ring
          _ = acc * 10 ^ (printNatAux fuel (n / 10)).length * 10 + n := by rw [h1]
      rw [harg]
      have hlen : (printNatAux fuel (n / 10) ++ [digitChar (n % 10)]).length
          = (printNatAux fuel (n / 10)).length + 1 := by simp
      rw [hlen, pow_succ, ← mul_assoc]

/-- Parsing the compact decimal print of `n` followed by non-digit text
recovers `n`. -/
theorem parseNatAux_printNat (n : Nat) (rest : List Char)
    (h : noDigitHeadB rest = true) :
    parseNatAux (printNat n ++ rest) 0 = (n, rest) := by
  unfold printNat
  by_cases h0 : n = 0
  · subst h0
    rw [if_pos rfl, List.singleton_append, parseNatAux]
    have hd := digit_facts 0 (by norm_num)
    have hd0 : isDigitC '0' = true := hd.1
    have hv0 : digitVal '0' = 0 := hd.2
    rw [show ('0' : Char) = digitChar 0 from by decide] at *
    rw [hd0]
    simp only [if_true, hv0]
    rw [parseNatAux_noDigit rest _ h]
  · rw [if_neg h0, parseNatAux_printNatAux (n + 1) n 0 rest (by omega)]
    rw [parseNatAux_noDigit rest _ h]
    simp

/-- Every character printed for a natural number is a digit. -/
theorem printNatAux_digits (fuel : Nat) :
    ∀ n c, c ∈ printNatAux fuel n → isDigitC c = true := by
  induction fuel with
  | zero => intro n c hc; simp [printNatAux] at hc
  | succ fuel ih =>
    intro n c hc
    by_cases h0 : n = 0
    · subst h0; simp [printNatAux] at hc
    · rw [printNatAux, if_neg h0] at hc
      rcases List.mem_append.mp hc with h | h
      · exact ih _ _ h
      · rw [List.mem_singleton] at h
        subst h
        exact (digit_facts (n % 10) (Nat.mod_lt _ (by norm_num))).1

/-- The printed form of a natural number starts with a digit. -/
theorem printNat_head_digit (n : Nat) :
    ∃ c cs, printNat n = c :: cs ∧ isDigitC c = true := by
  unfold printNat
  by_cases h0 : n = 0
  · subst h0
    exact ⟨'0', [], rfl, by decide⟩
  · rw [if_neg h0]
    cases hE : printNatAux (n + 1) n with
    | nil =>
      exfalso
      rw [printNatAux, if_neg h0] at hE
      exact List.append_ne_nil_of_right_ne_nil _ (by simp) hE
    | cons c cs =>
      exact ⟨c, cs, rfl, printNatAux_digits (n + 1) n c (by rw [hE]; exact List.mem_cons_self c cs)⟩

/-- Parsing the compact print of an integer followed by non-digit text
recovers the integer. -/
theorem parseIntTok_printInt (n : Int) (rest : List Char)
    (h : noDigitHeadB rest = true) :
    parseIntTok (printInt n ++ rest) = some (n, rest) := by
  obtain ⟨c, cs, hP, hD⟩ := printNat_head_digit n.natAbs
  have hplist : printNat n.natAbs ++ rest = c :: (cs ++ rest) := by
    rw [hP]; simp
  unfold printInt
  by_cases hneg : n < 0
  · rw [if_pos hneg, List.cons_append, parseIntTok, if_pos rfl]
    have hnod : noDigitHeadB (printNat n.natAbs ++ rest) = false := by
      rw [hplist, noDigitHeadB, hD]
      rfl
    rw [hnod]
    simp only [Bool.false_eq_true, if_false]
    rw [parseNatAux_printNat n.natAbs rest h]
    have hcast : -(n.natAbs : Int) = n := by omega
    rw [hcast]
  · rw [if_neg hneg, hplist, parseIntTok]
    have hnd : c ≠ '-' := isDigitC_ne c '-' hD (by decide)
    rw [if_neg hnd, hD]
    simp only [if_true]
    rw [← hplist, parseNatAux_printNat n.natAbs rest h]
    have hcast : (n.natAbs : Int) = n := by omega
    rw [hcast]

/-- Parsing an escaped string body followed by the closing quote
recovers the body. -/
theorem parseStrChars_escape (s : List Char) (rest : List Char) :
    parseStrChars (escapeChars s ++ '"' :: rest) = some (s, rest) := by
  induction s with
  | nil =>
    rw [escapeChars, List.nil_append, parseStrChars, if_pos rfl]
  | cons c s ih =>
    by_cases h1 : c = '"'
    · subst h1
      rw [escapeChars, if_pos rfl, List.cons_append, List.cons_append]
      rw [parseStrChars, if_neg (by decide), if_pos rfl]
      rw [parseStrEsc, ih]
    · by_cases h2 : c = '\\'
      · subst h2
        rw [escapeChars, if_neg (by decide), if_pos rfl]
        rw [List.cons_append, List.cons_append]
        rw [parseStrChars, if_neg (by decide), if_pos rfl]
        rw [parseStrEsc, ih]
      · rw [escapeChars, if_neg h1, if_neg h2, List.cons_append]
        rw [parseStrChars, if_neg h1, if_neg h2]
        rw [ih]

/-- The printed form of an integer starts with a minus sign or a digit. -/
theorem printInt_head (n : Int) :
    ∃ c cs, printInt n = c :: cs ∧ (c = '-' ∨ isDigitC c = true) := by
  obtain ⟨c, cs, hP, hD⟩ := printNat_head_digit n.natAbs
  unfold printInt
  by_cases hneg : n < 0
  · exact ⟨'-', printNat n.natAbs, by rw [if_pos hneg], Or.inl rfl⟩
  · exact ⟨c, cs, by rw [if_neg hneg, hP], Or.inr hD⟩

/-- Every JSON fuel bound is positive. -/
theorem jfuel_pos : ∀ v : JsonVal, 1 ≤ jfuel v := by
  intro v
  cases v <;> rw [jfuel] <;> omega

/-- Every array fuel bound is positive. -/
theorem jfuelArr_pos : ∀ xs : JsonArr, 1 ≤ jfuelArr xs := by
  intro xs
  cases xs <;> rw [jfuelArr] <;> omega

/-- Every object fuel bound is positive. -/
theorem jfuelObj_pos : ∀ fs : JsonObj, 1 ≤ jfuelObj fs := by
  intro fs
  cases fs <;> rw [jfuelObj] <;> omega

/-- The print of a JSON value is non-empty and does not start with a
closing delimiter or separator. -/
theorem printJson_shape (v : JsonVal) :
    ∃ c cs, printJson v = c :: cs ∧ c ≠ ']' ∧ c ≠ ',' ∧ c ≠ '\x7d' := by
  cases v with
  | null => exact ⟨'n', ['u', 'l', 'l'], rfl, by decide, by decide, by decide⟩
  | jbool b =>
    cases b with
    | true => exact ⟨'t', ['r', 'u', 'e'], rfl, by decide, by decide, by decide⟩
    | false => exact ⟨'f', ['a', 'l', 's', 'e'], rfl, by decide, by decide, by decide⟩
  | jint n =>
    obtain ⟨c, cs, hP, hC⟩ := printInt_head n
    refine ⟨c, cs, ?_, ?_, ?_, ?_⟩
    · show printInt n = c :: cs
      exact hP
    · rcases hC with rfl | hD
      · decide
      · exact isDigitC_ne c ']' hD (by decide)
    · rcases hC with rfl | hD
      · decide
      · exact isDigitC_ne c ',' hD (by decide)
    · rcases hC with rfl | hD
      · decide
      · exact isDigitC_ne c '\x7d' hD (by decide)
  | jstr s =>
    exact ⟨'"', escapeChars s.data ++ ['"'], rfl, by decide, by decide, by decide⟩
  | jarr xs =>
    exact ⟨'[', printArr xs ++ [']'], rfl, by decide, by decide, by decide⟩
  | jobj fs =>
    exact ⟨'\x7b', printObj fs ++ ['\x7d'], rfl, by decide, by decide, by decide⟩

/-- The continuation of an array element never starts with a digit. -/
theorem noDigitHead_printArrTail (xs : JsonArr) (r : List Char) :
    noDigitHeadB (printArrTail xs ++ ']' :: r) = true := by
  cases xs with
  | nil =>
    rw [printArrTail, List.nil_append, noDigitHeadB]
    decide
  | cons v rest =>
    rw [printArrTail, List.cons_append, noDigitHeadB]
    decide

/-- The continuation of an object value never starts with a digit. -/
theorem noDigitHead_printObjTail (fs : JsonObj) (r : List Char) :
    noDigitHeadB (printObjTail fs ++ '\x7d' :: r) = true := by
  cases fs with
  | nil =>
    rw [printObjTail, List.nil_append, noDigitHeadB]
    decide
  | cons k v rest =>
    rw [printObjTail, List.cons_append, noDigitHeadB]
    decide

mutual
/-- The parser recovers any printed JSON value, leaving the (non-digit
headed) continuation untouched, given fuel at least the value's bound. -/
theorem parse_printJson : ∀ (v : JsonVal) (fuel : Nat) (rest : List Char),
    jfuel v ≤ fuel → noDigitHeadB rest = true →
    parseVal fuel (printJson v ++ rest) = some (v, rest)
  | .null, fuel, rest, hf, _ => by
    cases fuel with
    | zero => exact absurd hf (by simp [jfuel])
    | succ f =>
      show parseVal (f + 1) ('n' :: 'u' :: 'l' :: 'l' :: rest) = some (.null, rest)
      rw [parseVal, if_pos rfl, parseNullTok]
  | .jbool true, fuel, rest, hf, _ => by
    cases fuel with
    | zero => exact absurd hf (by simp [jfuel])
    | succ f =>
      show parseVal (f + 1) ('t' :: 'r' :: 'u' :: 'e' :: rest)
          = some (.jbool true, rest)
      rw [parseVal, if_neg (by decide), if_pos rfl, parseTrueTok]
  | .jbool false, fuel, rest, hf, _ => by
    cases fuel with
    | zero => exact absurd hf (by simp [jfuel])
    | succ f =>
      show parseVal (f + 1) ('f' :: 'a' :: 'l' :: 's' :: 'e' :: rest)
          = some (.jbool false, rest)
      rw [parseVal, if_neg (by decide), if_neg (by decide), if_pos rfl,
        parseFalseTok]
  | .jint n, fuel, rest, hf, hr => by
    cases fuel with
    | zero => exact absurd hf (by simp [jfuel])
    | succ f =>
      obtain ⟨c, cs, hP, hC⟩ := printInt_head n
      have hn1 : c ≠ 'n' := by
        rcases hC with rfl | hD
        · decide
        · exact isDigitC_ne c 'n' hD (by decide)
      have hn2 : c ≠ 't' := by
        rcases hC with rfl | hD
        · decide
        · exact isDigitC_ne c 't' hD (by decide)
      have hn3 : c ≠ 'f' := by
        rcases hC with rfl | hD
        · decide
        · exact isDigitC_ne c 'f' hD (by decide)
      have hn4 : c ≠ '"' := by
        rcases hC with rfl | hD
        · decide
        · exact isDigitC_ne c '"' hD (by decide)
      have hn5 : c ≠ '[' := by
        rcases hC with rfl | hD
        · decide
        · exact isDigitC_ne c '[' hD (by decide)
      have hn6 : c ≠ '\x7b' := by
        rcases hC with rfl | hD
        · decide
        · exact isDigitC_ne c '\x7b' hD (by decide)
      have hsh : printJson (.jint n) ++ rest = c :: (cs ++ rest) := by
        show printInt n ++ rest = c :: (cs ++ rest)
        rw [hP]
        simp
      rw [hsh, parseVal, if_neg hn1, if_neg hn2, if_neg hn3, if_neg hn4,
        if_neg hn5, if_neg hn6]
      have hback : c :: (cs ++ rest) = printInt n ++ rest := by
        rw [hP]; simp
      rw [hback, parseIntTok_printInt n rest hr]
      rfl
  | .jstr s, fuel, rest, hf, _ => by
    cases fuel with
    | zero => exact absurd hf (by simp [jfuel])
    | succ f =>
      have hsh : printJson (.jstr s) ++ rest
          = '"' :: (escapeChars s.data ++ '"' :: rest) := by
        show ('"' :: (escapeChars s.data ++ ['"'])) ++ rest = _
        simp
      rw [hsh, parseVal, if_neg (by decide), if_neg (by decide),
        if_neg (by decide), if_pos rfl, parseStrChars_escape s.data rest]
      rfl
  | .jarr xs, fuel, rest, hf, _ => by
    cases fuel with
    | zero =>
      exfalso
      have := jfuelArr_pos xs
      simp [jfuel] at hf
    | succ f =>
      have hsh : printJson (.jarr xs) ++ rest
          = '[' :: (printArr xs ++ ']' :: rest) := by
        show ('[' :: (printArr xs ++ [']'])) ++ rest = _
        simp
      rw [hsh, parseVal, if_neg (by decide), if_neg (by decide),
        if_neg (by decide), if_neg (by decide), if_pos rfl]
      have hxs : jfuelArr xs ≤ f := by
        simp [jfuel] at hf
        omega
      exact parse_printArrBody xs f rest hxs
  | .jobj fs, fuel, rest, hf, _ => by
    cases fuel with
    | zero =>
      exfalso
      have := jfuelObj_pos fs
      simp [jfuel] at hf
    | succ f =>
      have hsh : printJson (.jobj fs) ++ rest
          = '\x7b' :: (printObj fs ++ '\x7d' :: rest) := by
        show ('\x7b' :: (printObj fs ++ ['\x7d'])) ++ rest = _
        simp
      rw [hsh, parseVal, if_neg (by decide), if_neg (by decide),
        if_neg (by decide), if_neg (by decide), if_neg (by decide), if_pos rfl]
      have hfs : jfuelObj fs ≤ f := by
        simp [jfuel] at hf
        omega
      exact parse_printObjBody fs f rest hfs
termination_by v fuel rest hf hr => jfuel v
decreasing_by
  all_goals simp only [jfuel]
  all_goals omega

/-- The parser of an array body recovers any printed array body. -/
theorem parse_printArrBody : ∀ (xs : JsonArr) (fuel : Nat) (rest : List Char),
    jfuelArr xs ≤ fuel →
    parseArrBody fuel (printArr xs ++ ']' :: rest) = some (.jarr xs, rest)
  | .nil, fuel, rest, hf => by
    cases fuel with
    | zero => exact absurd hf (by simp [jfuelArr])
    | succ f =>
      rw [show printArr JsonArr.nil ++ ']' :: rest = ']' :: rest from by
        rw [printArr]; simp]
      rw [parseArrBody, if_pos rfl]
  | .cons v xs, fuel, rest, hf => by
    cases fuel with
    | zero =>
      exfalso
      rw [jfuelArr] at hf
      omega
    | succ f =>
      obtain ⟨c, cs, hP, h1, _, _⟩ := printJson_shape v
      have hv : jfuel v ≤ f := by
        simp [jfuelArr] at hf
        have := jfuelArr_pos xs
        omega
      have hxs : jfuelArr xs ≤ f := by
        simp [jfuelArr] at hf
        have := jfuel_pos v
        omega
      have hsh : printArr (.cons v xs) ++ ']' :: rest
          = c :: (cs ++ (printArrTail xs ++ ']' :: rest)) := by
        rw [printArr, hP]
        simp
      rw [hsh, parseArrBody, if_neg h1]
      have hback : c :: (cs ++ (printArrTail xs ++ ']' :: rest))
          = printJson v ++ (printArrTail xs ++ ']' :: rest) := by
        rw [hP]; simp
      rw [hback,
        parse_printJson v f _ hv (noDigitHead_printArrTail xs rest),
        Option.some_bind, parse_printArrTail xs f rest hxs]
      rfl
termination_by xs fuel rest hf => jfuelArr xs
decreasing_by
  all_goals simp only [jfuelArr]
  all_goals omega

/-- The parser of an array continuation recovers any printed
continuation. -/
theorem parse_printArrTail : ∀ (xs : JsonArr) (fuel : Nat) (rest : List Char),
    jfuelArr xs ≤ fuel →
    parseArrTailP fuel (printArrTail xs ++ ']' :: rest) = some (xs, rest)
  | .nil, fuel, rest, hf => by
    cases fuel with
    | zero => exact absurd hf (by simp [jfuelArr])
    | succ f =>
      rw [show printArrTail JsonArr.nil ++ ']' :: rest = ']' :: rest from by
        rw [printArrTail]; simp]
      rw [parseArrTailP, if_pos rfl]
  | .cons v xs, fuel, rest, hf => by
    cases fuel with
    | zero =>
      exfalso
      rw [jfuelArr] at hf
      omega
    | succ f =>
      have hv : jfuel v ≤ f := by
        simp [jfuelArr] at hf
        have := jfuelArr_pos xs
        omega
      have hxs : jfuelArr xs ≤ f := by
        simp [jfuelArr] at hf
        have := jfuel_pos v
        omega
      have hsh : printArrTail (.cons v xs) ++ ']' :: rest
          = ',' :: (printJson v ++ (printArrTail xs ++ ']' :: rest)) := by
        rw [printArrTail]
        simp
      rw [hsh, parseArrTailP, if_neg (by decide), if_pos rfl,
        parse_printJson v f _ hv (noDigitHead_printArrTail xs rest),
        Option.some_bind, parse_printArrTail xs f rest hxs]
      rfl
termination_by xs fuel rest hf => jfuelArr xs
decreasing_by
  all_goals simp only [jfuelArr]
  all_goals omega

/-- The parser of an object body recovers any printed object body. -/
theorem parse_printObjBody : ∀ (fs : JsonObj) (fuel : Nat) (rest : List Char),
    jfuelObj fs ≤ fuel →
    parseObjBody fuel (printObj fs ++ '\x7d' :: rest) = some (.jobj fs, rest)
  | .nil, fuel, rest, hf => by
    cases fuel with
    | zero => exact absurd hf (by simp [jfuelObj])
    | succ f =>
      rw [show printObj JsonObj.nil ++ '\x7d' :: rest = '\x7d' :: rest from by
        rw [printObj]; simp]
      rw [parseObjBody, if_pos rfl]
  | .cons k v fs, fuel, rest, hf => by
    cases fuel with
    | zero =>
      exfalso
      rw [jfuelObj] at hf
      omega
    | succ f =>
      have hkv : jfuel v + jfuelObj fs ≤ f := by
        simp [jfuelObj] at hf
        omega
      have hsh : printObj (.cons k v fs) ++ '\x7d' :: rest
          = '"' :: (escapeChars k.data
              ++ '"' :: ':' :: (printJson v ++ (printObjTail fs ++ '\x7d' :: rest))) := by
        rw [printObj, printStr]
        simp
      rw [hsh, parseObjBody, if_neg (by decide)]
      have hcm := parse_printObjComma k v fs f rest hkv
      rw [show ('"' :: (escapeChars k.data
            ++ '"' :: ':' :: (printJson v ++ (printObjTail fs ++ '\x7d' :: rest))))
          = printStr k ++ ':' :: (printJson v ++ (printObjTail fs ++ '\x7d' :: rest)) from by
        rw [printStr]; simp]
      rw [hcm]
      rfl
termination_by fs fuel rest hf => jfuelObj fs
decreasing_by
  all_goals simp only [jfuelObj]
  all_goals omega

/-- The parser of an object continuation recovers any printed
continuation. -/
theorem parse_printObjTail : ∀ (fs : JsonObj) (fuel : Nat) (rest : List Char),
    jfuelObj fs ≤ fuel →
    parseObjTailP fuel (printObjTail fs ++ '\x7d' :: rest) = some (fs, rest)
  | .nil, fuel, rest, hf => by
    cases fuel with
    | zero => exact absurd hf (by simp [jfuelObj])
    | succ f =>
      rw [show printObjTail JsonObj.nil ++ '\x7d' :: rest = '\x7d' :: rest from by
        rw [printObjTail]; simp]
      rw [parseObjTailP, if_pos rfl]
  | .cons k v fs, fuel, rest, hf => by
    cases fuel with
    | zero =>
      exfalso
      rw [jfuelObj] at hf
      omega
    | succ f =>
      have hkv : jfuel v + jfuelObj fs ≤ f := by
        simp [jfuelObj] at hf
        omega
      have hsh : printObjTail (.cons k v fs) ++ '\x7d' :: rest
          = ',' :: (printStr k
              ++ ':' :: (printJson v ++ (printObjTail fs ++ '\x7d' :: rest))) := by
        rw [printObjTail]
        simp
      rw [hsh, parseObjTailP, if_neg (by decide), if_pos rfl]
      exact parse_printObjComma k v fs f rest hkv
termination_by fs fuel rest hf => jfuelObj fs
decreasing_by
  all_goals simp only [jfuelObj]
  all_goals omega

/-- The parser of one key-value pair and the following continuation
recovers what the printer emits for them. -/
theorem parse_printObjComma : ∀ (k : String) (v : JsonVal) (fs : JsonObj)
    (fuel : Nat) (rest : List Char), jfuel v + jfuelObj fs ≤ fuel →
    parseObjComma fuel
        (printStr k ++ ':' :: (printJson v ++ (printObjTail fs ++ '\x7d' :: rest)))
      = some (.cons k v fs, rest)
  | k, v, fs, fuel, rest, hf => by
    cases fuel with
    | zero =>
      exfalso
      have h1 := jfuel_pos v
      have h2 := jfuelObj_pos fs
      omega
    | succ f =>
      have hv : jfuel v ≤ f := by
        have := jfuelObj_pos fs
        omega
      have hfs : jfuelObj fs ≤ f := by
        have := jfuel_pos v
        omega
      have hsh : printStr k ++ ':' :: (printJson v ++ (printObjTail fs ++ '\x7d' :: rest))
          = '"' :: (escapeChars k.data
              ++ '"' :: ':' :: (printJson v ++ (printObjTail fs ++ '\x7d' :: rest))) := by
        rw [printStr]
        simp
      rw [hsh, parseObjComma, if_pos rfl,
        parseStrChars_escape k.data
          (':' :: (printJson v ++ (printObjTail fs ++ '\x7d' :: rest))),
        Option.some_bind, expectColon, Option.some_bind,
        parse_printJson v f _ hv (noDigitHead_printObjTail fs rest),
        Option.some_bind, parse_printObjTail fs f rest hfs]
      rfl
termination_by k v fs fuel rest hf => jfuel v + jfuelObj fs
decreasing_by
  all_goals
    have h1 := jfuel_pos v
    have h2 := jfuelObj_pos fs
    omega
end

mutual
/-- The fuel bound of a value is dominated by its printed length. -/
theorem jfuel_le : ∀ v : JsonVal, jfuel v ≤ 2 * (printJson v).length + 1
  | .null => by rw [jfuel]; omega
  | .jbool b => by rw [jfuel]; omega
  | .jint n => by rw [jfuel]; omega
  | .jstr s => by rw [jfuel]; omega
  | .jarr xs => by
    have h := jfuelArr_le_body xs
    rw [jfuel, printJson]
    simp only [List.length_cons, List.length_append, List.length_singleton]
    omega
  | .jobj fs => by
    have h := jfuelObj_le_body fs
    rw [jfuel, printJson]
    simp only [List.length_cons, List.length_append, List.length_singleton]
    omega

/-- Array-body variant of the fuel-length bound. -/
theorem jfuelArr_le_body : ∀ xs : JsonArr, jfuelArr xs ≤ 2 * (printArr xs).length + 4
  | .nil => by rw [jfuelArr]; omega
  | .cons v ys => by
    have h1 := jfuel_le v
    have h2 := jfuelArr_le_tail ys
    rw [jfuelArr, printArr]
    simp only [List.length_append]
    omega

/-- Array-continuation variant of the fuel-length bound. -/
theorem jfuelArr_le_tail : ∀ xs : JsonArr, jfuelArr xs ≤ 2 * (printArrTail xs).length + 2
  | .nil => by rw [jfuelArr]; omega
  | .cons v ys => by
    have h1 := jfuel_le v
    have h2 := jfuelArr_le_tail ys
    rw [jfuelArr, printArrTail]
    simp only [List.length_cons, List.length_append]
    omega

/-- Object-body variant of the fuel-length bound. -/
theorem jfuelObj_le_body : ∀ fs : JsonObj, jfuelObj fs ≤ 2 * (printObj fs).length + 4
  | .nil => by rw [jfuelObj]; omega
  | .cons k v gs => by
    have h1 := jfuel_le v
    have h2 := jfuelObj_le_tail gs
    rw [jfuelObj, printObj]
    simp only [List.length_cons, List.length_append]
    omega

/-- Object-continuation variant of the fuel-length bound. -/
theorem jfuelObj_le_tail : ∀ fs : JsonObj, jfuelObj fs ≤ 2 * (printObjTail fs).length + 2
  | .nil => by rw [jfuelObj]; omega
  | .cons k v gs => by
    have h1 := jfuel_le v
    have h2 := jfuelObj_le_tail gs
    rw [jfuelObj, printObjTail]
    simp only [List.length_cons, List.length_append]
    omega
end

/-- The JSON decoder inverts the encoder on every value. -/
theorem decodeJson_encodeJson (v : JsonVal) : decodeJson (encodeJson v) = some v := by
  unfold decodeJson encodeJson
  have hf : jfuel v ≤ 2 * (printJson v).length + 2 := by
    have := jfuel_le v
    omega
  have hp := parse_printJson v (2 * (printJson v).length + 2) [] hf rfl
  rw [List.append_nil] at hp
  rw [hp]
  rfl

/-- Leaf-data lookup hits a head entry with the looked-up key. -/
theorem ldLookup_cons_hit (k : String) (b : Bytes) (rest : SerializedLeafData) :
    ldLookup ((k, b) :: rest) k = some b := by
  unfold ldLookup
  rw [List.find?_cons_of_pos _ (by simp)]
  rfl

/-- Leaf-data lookup skips a head entry with a different key. -/
theorem ldLookup_cons_miss (k k' : String) (b : Bytes) (rest : SerializedLeafData)
    (h : k ≠ k') : ldLookup ((k, b) :: rest) k' = ldLookup rest k' := by
  unfold ldLookup
  rw [List.find?_cons_of_neg _ (by simp [h])]

/-- String lists survive the trip through a JSON array. -/
theorem jsonStrList_strArr (vs : List String) : jsonStrList (strArr vs) = some vs := by
  induction vs with
  | nil => rfl
  | cons s rest ih =>
    rw [strArr, jsonStrList]
    simp [ih]

/-- Header mappings survive the trip through their JSON object. -/
theorem jsonHeaders_roundtrip (h : List (String × List String)) :
    jsonHeaders (headersJsonObj h) = some h := by
  induction h with
  | nil => rfl
  | cons kv rest ih =>
    obtain ⟨k, vs⟩ := kv
    rw [headersJsonObj, jsonHeaders]
    simp [jsonStrList_strArr, ih]

/-- Nullable integers survive the trip through JSON. -/
theorem jsonOptInt_optIntJson (s : Option Int) : jsonOptInt (optIntJson s) = some s := by
  cases s <;> rfl

/-- Nullable strings survive the trip through JSON. -/
theorem jsonOptStr_optStrJson (s : Option String) : jsonOptStr (optStrJson s) = some s := by
  cases s <;> rfl

/-- The generic data codec round-trips. -/
theorem dataCodec_roundtrip (v : PyVal) (ld : SerializedLeafData)
    (h : dataSer v = some ld) : dataDeser ld = some v := by
  cases v with
  | data j =>
    rw [dataSer] at h
    injection h with h
    subst h
    unfold dataDeser
    rw [ldLookup_cons_hit]
    show Option.map PyVal.data (decodeJson (encodeJson j)) = some (PyVal.data j)
    rw [decodeJson_encodeJson]
    rfl
  | resp r => simp [dataSer] at h
  | requrl u => simp [dataSer] at h
  | respurl u => simp [dataSer] at h
  | custom t p => simp [dataSer] at h

/-- The request-URL codec round-trips and restores the subtype. -/
theorem requrlCodec_roundtrip (v : PyVal) (ld : SerializedLeafData)
    (h : requrlSer v = some ld) : requrlDeser ld = some v := by
  cases v with
  | requrl u =>
    rw [requrlSer] at h
    injection h with h
    subst h
    unfold requrlDeser
    rw [ldLookup_cons_hit]
    rfl
  | data j => simp [requrlSer] at h
  | resp r => simp [requrlSer] at h
  | respurl u => simp [requrlSer] at h
  | custom t p => simp [requrlSer] at h

/-- The response-URL codec round-trips and restores the subtype. -/
theorem respurlCodec_roundtrip (v : PyVal) (ld : SerializedLeafData)
    (h : respurlSer v = some ld) : respurlDeser ld = some v := by
  cases v with
  | respurl u =>
    rw [respurlSer] at h
    injection h with h
    subst h
    unfold respurlDeser
    rw [ldLookup_cons_hit]
    rfl
  | data j => simp [respurlSer] at h
  | resp r => simp [respurlSer] at h
  | requrl u => simp [respurlSer] at h
  | custom t p => simp [respurlSer] at h

/-- The HTTP-response codec round-trips, preserving the body, URL,
status, headers, and the encoding exactly (including the not-specified
state). -/
theorem respCodec_roundtrip (v : PyVal) (ld : SerializedLeafData)
    (h : respSer v = some ld) : respDeser ld = some v := by
  cases v with
  | resp r =>
    rw [respSer] at h
    injection h with h
    subst h
    unfold respDeser
    have hfb : findBody [("body." ++ bodyExt r.body, r.body),
        ("other.json", encodeJson (respMetaJson r))] = some r.body := by
      unfold findBody bodyExt
      by_cases hm : looksMarkup r.body
      · simp only [hm, if_true]
        rw [show ("body." ++ "html" : String) = "body.html" from by decide]
        rw [ldLookup_cons_hit]
      · simp only [hm, Bool.false_eq_true, if_false]
        rw [show ("body." ++ "txt" : String) = "body.txt" from by decide]
        rw [ldLookup_cons_miss _ _ _ _ (by decide),
          ldLookup_cons_miss _ _ _ _ (by decide)]
        rw [show ldLookup [] "body.html" = none from rfl]
        rw [ldLookup_cons_hit]
    have hoj : ldLookup [("body." ++ bodyExt r.body, r.body),
        ("other.json", encodeJson (respMetaJson r))] "other.json"
        = some (encodeJson (respMetaJson r)) := by
      unfold bodyExt
      by_cases hm : looksMarkup r.body
      · simp only [hm, if_true]
        rw [show ("body." ++ "html" : String) = "body.html" from by decide]
        rw [ldLookup_cons_miss _ _ _ _ (by decide), ldLookup_cons_hit]
      · simp only [hm, Bool.false_eq_true, if_false]
        rw [show ("body." ++ "txt" : String) = "body.txt" from by decide]
        rw [ldLookup_cons_miss _ _ _ _ (by decide), ldLookup_cons_hit]
    rw [hfb, hoj]
    simp [decodeJson_encodeJson, respMetaJson, objLookup,
      jsonOptInt_optIntJson, jsonOptStr_optStrJson, jsonHeaders_roundtrip]
  | data j => simp [respSer] at h
  | requrl u => simp [respSer] at h
  | respurl u => simp [respSer] at h
  | custom t p => simp [respSer] at h

/-- The pre-registered built-in codec table satisfies the registration
invariant: every built-in codec round-trips. -/
theorem builtinTable_WF : CodecTable.WF builtinTable := by
  intro t c hlook v hv ld hser
  cases t with
  | dataT =>
    rw [show lookupCodec builtinTable PyType.dataT
        = some ⟨dataSer, dataDeser⟩ from rfl] at hlook
    injection hlook with hlook
    subst hlook
    exact dataCodec_roundtrip v ld hser
  | httpResponseT =>
    rw [show lookupCodec builtinTable PyType.httpResponseT
        = some ⟨respSer, respDeser⟩ from rfl] at hlook
    injection hlook with hlook
    subst hlook
    exact respCodec_roundtrip v ld hser
  | requestUrlT =>
    rw [show lookupCodec builtinTable PyType.requestUrlT
        = some ⟨requrlSer, requrlDeser⟩ from rfl] at hlook
    injection hlook with hlook
    subst hlook
    exact requrlCodec_roundtrip v ld hser
  | responseUrlT =>
    rw [show lookupCodec builtinTable PyType.responseUrlT
        = some ⟨respurlSer, respurlDeser⟩ from rfl] at hlook
    injection hlook with hlook
    subst hlook
    exact respurlCodec_roundtrip v ld hser
  | customT t =>
    rw [show lookupCodec builtinTable (PyType.customT t) = none from rfl] at hlook
    exact Option.noConfusion hlook

/-- C6: leaf (de)serialization round-trips. The built-in codec table
satisfies the registration invariant outright, and over any codec table
whose registered pairs satisfy the spec's invariant (serialize and
deserialize of one registration used together and mutually inverse —
which the built-ins are, and registered custom codecs are required to
be), `deserialize_leaf` at the value's exact runtime type inverts
`serialize_leaf`; in particular HTTP responses come back with their
encoding state intact (`None` included), and URL values come back
through their own subtype's codec. -/
theorem C6_leaf_roundtrip :
    CodecTable.WF builtinTable
    ∧ (∀ tab : CodecTable, CodecTable.WF tab →
        ∀ v ld, serialize_leaf tab v = some ld →
          deserialize_leaf tab v.type_of ld = some v)
    ∧ (∀ r ld, serialize_leaf builtinTable (.resp r) = some ld →
        deserialize_leaf builtinTable .httpResponseT ld = some (.resp r))
    ∧ (∀ u ld, serialize_leaf builtinTable (.requrl u) = some ld →
        deserialize_leaf builtinTable .requestUrlT ld = some (.requrl u)) := by
  have hmain : ∀ tab : CodecTable, CodecTable.WF tab →
      ∀ v ld, serialize_leaf tab v = some ld →
        deserialize_leaf tab v.type_of ld = some v := by
    intro tab hwf v ld hser
    unfold serialize_leaf at hser
    unfold deserialize_leaf
    cases hl : lookupCodec tab v.type_of with
    | none =>
      rw [hl] at hser
      exact Option.noConfusion hser
    | some c =>
      rw [hl] at hser
      exact hwf _ c hl v rfl ld hser
  refine ⟨builtinTable_WF, hmain, ?_, ?_⟩
  · intro r ld hser
    exact hmain builtinTable builtinTable_WF (.resp r) ld hser
  · intro u ld hser
    exact hmain builtinTable builtinTable_WF (.requrl u) ld hser

/-- C6, witness: the test dictionary `{"a": "b", "c": 42}` is serialized
by the built-in data codec and deserialized back to itself. -/
theorem C6_witness :
    deserialize_leaf builtinTable
        (PyVal.data (JsonVal.jobj (JsonObj.cons "a" (JsonVal.jstr "b")
          (JsonObj.cons "c" (JsonVal.jint 42) JsonObj.nil)))).type_of
        [("json", encodeJson (JsonVal.jobj (JsonObj.cons "a" (JsonVal.jstr "b")
          (JsonObj.cons "c" (JsonVal.jint 42) JsonObj.nil))))]
      = some (PyVal.data (JsonVal.jobj (JsonObj.cons "a" (JsonVal.jstr "b")
          (JsonObj.cons "c" (JsonVal.jint 42) JsonObj.nil)))) :=
  C6_leaf_roundtrip.2.1 builtinTable C6_leaf_roundtrip.1
    (PyVal.data (JsonVal.jobj (JsonObj.cons "a" (JsonVal.jstr "b")
      (JsonObj.cons "c" (JsonVal.jint 42) JsonObj.nil))))
    [("json", encodeJson (JsonVal.jobj (JsonObj.cons "a" (JsonVal.jstr "b")
      (JsonObj.cons "c" (JsonVal.jint 42) JsonObj.nil))))]
    (by decide)

/-! Lemmas for the directory codec. -/

/-- Containment distributes over character-list concatenation. -/
theorem charsContains_append (a b : List Char) (x : Char) :
    charsContains (a ++ b) x = (charsContains a x || charsContains b x) := by
  induction a with
  | nil => rfl
  | cons c rest ih =>
    rw [List.cons_append, charsContains, charsContains, ih, Bool.or_assoc]

/-- Splitting at the first occurrence of a separator that does not occur
in the prefix splits exactly at the marked position. -/
theorem splitCharsOnFirst_append (a b : List Char) (sep : Char)
    (h : charsContains a sep = false) :
    splitCharsOnFirst (a ++ sep :: b) sep = (a, b) := by
  induction a with
  | nil => rw [List.nil_append, splitCharsOnFirst, if_pos rfl]
  | cons c rest ih =>
    rw [charsContains] at h
    have h1 : (c == sep) = false := by
      cases hcs : (c == sep) with
      | true => rw [hcs] at h; simp at h
      | false => rfl
    have h2 : charsContains rest sep = false := by
      rw [h1] at h
      simpa using h
    rw [List.cons_append, splitCharsOnFirst, if_neg (beq_eq_false_iff_ne.mp h1),
      ih h2]

/-- Reading a file name written by the directory codec recovers the type
name and the format key, for separator-free type names and good keys. -/
theorem splitFileName_entryFileName (tn k : String)
    (hg : goodName tn = true) (hk : goodKey k = true) :
    splitFileName (entryFileName tn k) = (tn, k) := by
  simp only [goodName, Bool.and_eq_true, Bool.not_eq_true'] at hg
  obtain ⟨hgd, hgp⟩ := hg
  unfold entryFileName
  by_cases hkd : strContains k '.' = true
  · rw [if_pos hkd]
    have hfdata : (strCat tn (strCat (String.mk ['-']) k)).data
        = tn.data ++ '-' :: k.data := rfl
    have hcf : strContains (strCat tn (strCat (String.mk ['-']) k)) '-' = true := by
      unfold strContains
      rw [hfdata, charsContains_append, charsContains]
      simp
    unfold splitFileName
    rw [if_pos hcf, hfdata,
      splitCharsOnFirst_append tn.data k.data '-' hgd]
  · rw [if_neg hkd]
    have hknd : strContains k '-' = false := by
      simp only [goodKey, Bool.or_eq_true, Bool.not_eq_true'] at hk
      rcases hk with hdot | hnd
      · exact absurd hdot hkd
      · exact hnd
    have hfdata : (strCat tn (strCat (String.mk ['.']) k)).data
        = tn.data ++ '.' :: k.data := rfl
    have hcf : strContains (strCat tn (strCat (String.mk ['.']) k)) '-' = false := by
      unfold strContains
      rw [hfdata, charsContains_append, charsContains]
      unfold strContains at hgd hknd
      rw [hgd, hknd]
      decide
    unfold splitFileName
    rw [if_neg (by rw [hcf]; exact Bool.false_ne_true), hfdata,
      splitCharsOnFirst_append tn.data k.data '.' hgp]

/-- The tail of a well-formed tree is well-formed. -/
theorem TreeOK_tail (e : String × SerializedLeafData) (rest : SerializedTree)
    (h : TreeOK (e :: rest)) : TreeOK rest := by
  obtain ⟨hnd, hmem⟩ := h
  rw [List.map_cons, List.nodup_cons] at hnd
  exact ⟨hnd.2, fun e' he' => hmem e' (List.mem_cons_of_mem e he')⟩

/-- The file names a tree produces are the images of its (type name,
key) pairs under the naming convention. -/
theorem treeFiles_map_fst (tree : SerializedTree) :
    (treeFiles tree).map Prod.fst
      = (treePairs tree).map (fun p => entryFileName p.1 p.2) := by
  induction tree with
  | nil => rfl
  | cons e rest ih =>
    rw [treeFiles, treePairs, List.map_append, List.map_append, ih]
    congr 1
    rw [leafFiles, List.map_map, List.map_map]
    rfl

/-- Every (type name, key) pair of a well-formed tree is good. -/
theorem treePairs_good (tree : SerializedTree) :
    TreeOK tree → ∀ p ∈ treePairs tree, goodName p.1 = true ∧ goodKey p.2 = true := by
  induction tree with
  | nil =>
    intro _ p hp
    simp [treePairs] at hp
  | cons e rest ih =>
    intro h p hp
    rw [treePairs] at hp
    rcases List.mem_append.mp hp with hL | hR
    · obtain ⟨kv, hkv, rfl⟩ := List.mem_map.mp hL
      obtain ⟨hgn, _, _, hkeys⟩ := h.2 e (List.mem_cons_self e rest)
      exact ⟨hgn, hkeys kv hkv⟩
    · exact ih (TreeOK_tail e rest h) p hR

/-- The first component of a tree pair is one of the tree's type names. -/
theorem treePairs_fst_mem (tree : SerializedTree) (p : String × String)
    (hp : p ∈ treePairs tree) : p.1 ∈ tree.map Prod.fst := by
  induction tree with
  | nil => simp [treePairs] at hp
  | cons e rest ih =>
    rw [treePairs] at hp
    rcases List.mem_append.mp hp with hL | hR
    · obtain ⟨kv, _, rfl⟩ := List.mem_map.mp hL
      simp
    · rw [List.map_cons]
      exact List.mem_cons_of_mem _ (ih hR)

/-- The (type name, key) pairs of a well-formed tree are distinct. -/
theorem treePairs_nodup (tree : SerializedTree) :
    TreeOK tree → (treePairs tree).Nodup := by
  induction tree with
  | nil => intro _; exact List.nodup_nil
  | cons e rest ih =>
    intro h
    rw [treePairs, List.nodup_append]
    obtain ⟨_, _, hkeysnd, _⟩ := h.2 e (List.mem_cons_self e rest)
    refine ⟨?_, ih (TreeOK_tail e rest h), ?_⟩
    · have hrw : e.2.map (fun kv => (e.1, kv.1))
          = (e.2.map Prod.fst).map (fun k => (e.1, k)) := by
        rw [List.map_map]
        rfl
      rw [hrw]
      exact hkeysnd.map (fun a b hab => by injection hab)
    · intro p hpl hpr
      obtain ⟨kv, _, rfl⟩ := List.mem_map.mp hpl
      have hfst := treePairs_fst_mem rest (e.1, kv.1) hpr
      have hnd := h.1
      rw [List.map_cons, List.nodup_cons] at hnd
      exact hnd.1 hfst

/-- The file names of a well-formed tree are distinct. -/
theorem treeFiles_names_nodup (tree : SerializedTree) (h : TreeOK tree) :
    ((treeFiles tree).map Prod.fst).Nodup := by
  rw [treeFiles_map_fst]
  apply List.Nodup.map_on ?_ (treePairs_nodup tree h)
  intro p hp q hq heq
  have hgp := treePairs_good tree h p hp
  have hgq := treePairs_good tree h q hq
  have h1 := splitFileName_entryFileName p.1 p.2 hgp.1 hgp.2
  have h2 := splitFileName_entryFileName q.1 q.2 hgq.1 hgq.2
  rw [heq] at h1
  have h3 := h1.symm.trans h2
  obtain ⟨p1, p2⟩ := p
  obtain ⟨q1, q2⟩ := q
  simpa using h3

/-- Writing a fresh file appends it to the directory. -/
theorem dirWrite_fresh (d : Directory) (name : String) (b : Bytes)
    (h : name ∉ d.map Prod.fst) : dirWrite d name b = d ++ [(name, b)] := by
  have hc : d.any (fun p => p.1 == name) = false := by
    rw [Bool.eq_false_iff]
    intro hcontra
    rw [List.any_eq_true] at hcontra
    obtain ⟨p, hp, hpe⟩ := hcontra
    rw [beq_iff_eq] at hpe
    exact h (hpe ▸ List.mem_map_of_mem Prod.fst hp)
  unfold dirWrite
  rw [hc]
  simp

/-- Writing a sequence of files with distinct names, none of which is
already present, appends them in order. -/
theorem fold_dirWrite_append (files : List (String × Bytes)) :
    ∀ d : Directory, (d.map Prod.fst ++ files.map Prod.fst).Nodup →
      files.foldl (fun d2 f => dirWrite d2 f.1 f.2) d = d ++ files := by
  induction files with
  | nil => intro d _; simp
  | cons f fs ih =>
    intro d hnd
    rw [List.foldl_cons]
    have hfresh : f.1 ∉ d.map Prod.fst := by
      rw [List.map_cons] at hnd
      have hdisj := (List.nodup_append.mp hnd).2.2
      intro hmem
      exact hdisj hmem (List.mem_cons_self _ _)
    rw [dirWrite_fresh d f.1 f.2 hfresh]
    rw [ih (d ++ [(f.1, f.2)]) (by simpa using hnd)]
    rw [List.append_assoc]
    rfl

/-- Writing a well-named tree into a directory appends all its files. -/
theorem write_serialized_data_append (tree : SerializedTree) :
    ∀ d : Directory, (d.map Prod.fst ++ (treeFiles tree).map Prod.fst).Nodup →
      write_serialized_data tree d = d ++ treeFiles tree := by
  induction tree with
  | nil => intro d _; simp [write_serialized_data, treeFiles]
  | cons e rest ih =>
    intro d hnd
    have hsplit : (treeFiles (e :: rest)).map Prod.fst
        = (leafFiles e.1 e.2).map Prod.fst ++ (treeFiles rest).map Prod.fst := by
      rw [treeFiles, List.map_append]
    have hinner : writeStep d e = d ++ leafFiles e.1 e.2 := by
      unfold writeStep
      have hmap : (leafFiles e.1 e.2).foldl (fun d2 f => dirWrite d2 f.1 f.2) d
          = e.2.foldl (fun d2 kv => dirWrite d2 (entryFileName e.1 kv.1) kv.2) d := by
        rw [leafFiles, List.foldl_map]
      rw [← hmap]
      apply fold_dirWrite_append
      rw [hsplit, ← List.append_assoc] at hnd
      exact (List.nodup_append.mp hnd).1
    unfold write_serialized_data
    rw [List.foldl_cons, hinner]
    have hrest := ih (d ++ leafFiles e.1 e.2) (by
      rw [hsplit, ← List.append_assoc] at hnd
      simpa using hnd)
    unfold write_serialized_data at hrest
    rw [hrest, treeFiles, List.append_assoc]

/-- Adding a triple for an absent type name appends a new entry. -/
theorem treeAdd_absent (acc : SerializedTree) (tn k : String) (b : Bytes) :
    tn ∉ acc.map Prod.fst → treeAdd acc tn k b = acc ++ [(tn, [(k, b)])] := by
  induction acc with
  | nil => intro _; rfl
  | cons e rest ih =>
    intro h
    obtain ⟨t, leaf⟩ := e
    rw [treeAdd]
    have hne : (t == tn) = false := by
      rw [beq_eq_false_iff_ne]
      intro he
      apply h
      rw [List.map_cons]
      exact he ▸ List.mem_cons_self _ _
    rw [hne]
    simp only [Bool.false_eq_true, if_false]
    rw [ih (fun hm => h (List.mem_cons_of_mem _ hm))]
    rfl

/-- Adding a triple for the last entry's type name appends to its leaf
data. -/
theorem treeAdd_last (acc : SerializedTree) (tn : String)
    (leaf : SerializedLeafData) (k : String) (b : Bytes) :
    tn ∉ acc.map Prod.fst →
    treeAdd (acc ++ [(tn, leaf)]) tn k b = acc ++ [(tn, leaf ++ [(k, b)])] := by
  induction acc with
  | nil =>
    intro _
    rw [List.nil_append, treeAdd]
    simp
  | cons e rest ih =>
    intro h
    obtain ⟨t, lf⟩ := e
    rw [List.cons_append, treeAdd]
    have hne : (t == tn) = false := by
      rw [beq_eq_false_iff_ne]
      intro he
      apply h
      rw [List.map_cons]
      exact he ▸ List.mem_cons_self _ _
    rw [hne]
    simp only [Bool.false_eq_true, if_false]
    rw [ih (fun hm => h (List.mem_cons_of_mem _ hm))]
    rfl

/-- Reading the files of one entry's remaining keys extends that entry's
leaf data in order. -/
theorem read_fold_leaf (tn : String) (hg : goodName tn = true) :
    ∀ kvs : SerializedLeafData, (∀ kv ∈ kvs, goodKey kv.1 = true) →
    ∀ (acc : SerializedTree) (leaf0 : SerializedLeafData),
      tn ∉ acc.map Prod.fst →
      (leafFiles tn kvs).foldl readStep (acc ++ [(tn, leaf0)])
        = acc ++ [(tn, leaf0 ++ kvs)] := by
  intro kvs
  induction kvs with
  | nil =>
    intro _ acc leaf0 _
    simp [leafFiles]
  | cons kv rest ih =>
    intro hks acc leaf0 hacc
    rw [leafFiles, List.map_cons, List.foldl_cons]
    have hstep : readStep (acc ++ [(tn, leaf0)]) (entryFileName tn kv.1, kv.2)
        = acc ++ [(tn, leaf0 ++ [(kv.1, kv.2)])] := by
      unfold readStep
      rw [splitFileName_entryFileName tn kv.1 hg
        (hks kv (List.mem_cons_self kv rest))]
      exact treeAdd_last acc tn leaf0 kv.1 kv.2 hacc
    rw [hstep]
    have hrest := ih (fun kv' h' => hks kv' (List.mem_cons_of_mem kv h'))
      acc (leaf0 ++ [(kv.1, kv.2)]) hacc
    rw [leafFiles] at hrest
    rw [hrest, List.append_assoc]
    rfl

/-- Reading all files of a well-formed tree rebuilds the tree after any
accumulator whose type names it avoids. -/
theorem read_fold_tree (tree : SerializedTree) :
    TreeOK tree →
    ∀ acc : SerializedTree, (∀ e ∈ tree, e.1 ∉ acc.map Prod.fst) →
      (treeFiles tree).foldl readStep acc = acc ++ tree := by
  induction tree with
  | nil =>
    intro _ acc _
    simp [treeFiles]
  | cons e rest ih =>
    intro h acc hacc
    rw [treeFiles, List.foldl_append]
    obtain ⟨hgn, hne, hkeysnd, hkeys⟩ := h.2 e (List.mem_cons_self e rest)
    cases hE : e.2 with
    | nil => exact absurd hE hne
    | cons kv kvs =>
      rw [leafFiles, List.map_cons, List.foldl_cons]
      have hstep : readStep acc (entryFileName e.1 kv.1, kv.2)
          = acc ++ [(e.1, [(kv.1, kv.2)])] := by
        unfold readStep
        rw [splitFileName_entryFileName e.1 kv.1 hgn
          (hkeys kv (by rw [hE]; exact List.mem_cons_self _ _))]
        exact treeAdd_absent acc e.1 kv.1 kv.2 (hacc e (List.mem_cons_self e rest))
      rw [hstep]
      have hleaf := read_fold_leaf e.1 hgn kvs
        (fun kv' h' => hkeys kv' (by rw [hE]; exact List.mem_cons_of_mem _ h'))
        acc [(kv.1, kv.2)] (hacc e (List.mem_cons_self e rest))
      rw [leafFiles] at hleaf
      rw [hleaf]
      have hacc' : ∀ e' ∈ rest,
          e'.1 ∉ (acc ++ [(e.1, [(kv.1, kv.2)] ++ kvs)]).map Prod.fst := by
        intro e' he'
        rw [List.map_append]
        intro hmem
        rcases List.mem_append.mp hmem with hA | hB
        · exact hacc e' (List.mem_cons_of_mem e he') hA
        · simp only [List.map_cons, List.map_nil, List.mem_singleton] at hB
          have hnd := h.1
          rw [List.map_cons, List.nodup_cons] at hnd
          exact hnd.1 (hB ▸ List.mem_map_of_mem Prod.fst he')
      rw [ih (TreeOK_tail e rest h) (acc ++ [(e.1, [(kv.1, kv.2)] ++ kvs)]) hacc']
      have hback : (e.1, ([(kv.1, kv.2)] : SerializedLeafData) ++ kvs) = e := by
        rw [List.singleton_append]
        show (e.1, kv :: kvs) = e
        rw [← hE]
      rw [List.append_assoc, List.singleton_append, hback]

/-- A tree entry's file, under its convention name, is among the files
the tree writes. -/
theorem mem_treeFiles (tree : SerializedTree) (e : String × SerializedLeafData)
    (he : e ∈ tree) (kv : String × Bytes) (hkv : kv ∈ e.2) :
    (entryFileName e.1 kv.1, kv.2) ∈ treeFiles tree := by
  induction tree with
  | nil => simp at he
  | cons e' rest ih =>
    rw [treeFiles]
    rcases List.mem_cons.mp he with heq | hmem
    · subst heq
      refine List.mem_append_left _ ?_
      rw [leafFiles]
      exact List.mem_map_of_mem _ hkv
    · exact List.mem_append_right _ (ih hmem)

/-- C7, counterexample: a tree whose only format key is the dot-free
`"a-b"` (which contains a dash) is written to the well-named file
`"T.a-b"`, but reading the directory splits that name at the first dash
and reconstructs a different tree, so the round-trip half of the claim
fails for this tree. -/
theorem C7_counterexample :
    read_serialized_data (write_serialized_data [("T", [("a-b", ['x'])])] [])
      ≠ [("T", [("a-b", ['x'])])] := by decide

/-- C7 (amended): for every tree whose type names contain neither dash
nor dot, with distinct type names and, per entry, non-empty leaf data
with distinct keys each of which either contains a dot or contains no
dash — which covers every name the serializer produces —
`write_serialized_data` writes each blob to `"<type_name>.<key>"` when
the key has no dot and to `"<type_name>-<key>"` when it has one, and
`read_serialized_data` of the resulting directory reconstructs the
original two-level mapping exactly. -/
theorem C7_directory_roundtrip (tree : SerializedTree) (h : TreeOK tree) :
    (∀ e ∈ tree, ∀ kv ∈ e.2,
      (entryFileName e.1 kv.1, kv.2) ∈ write_serialized_data tree []
      ∧ entryFileName e.1 kv.1
          = (if strContains kv.1 '.' = true
             then strCat e.1 (strCat (String.mk ['-']) kv.1)
             else strCat e.1 (strCat (String.mk ['.']) kv.1)))
    ∧ read_serialized_data (write_serialized_data tree []) = tree := by
  have hnodup : (([] : Directory).map Prod.fst
      ++ (treeFiles tree).map Prod.fst).Nodup := by
    simpa using treeFiles_names_nodup tree h
  have hw : write_serialized_data tree [] = treeFiles tree := by
    have h2 := write_serialized_data_append tree [] hnodup
    simpa using h2
  constructor
  · intro e he kv hkv
    constructor
    · rw [hw]
      exact mem_treeFiles tree e he kv hkv
    · rfl
  · rw [hw]
    unfold read_serialized_data
    have hr := read_fold_tree tree h [] (by intro e _ hm; simp at hm)
    simpa using hr

/-- C7, witness: a concrete well-named two-entry tree round-trips
through the directory codec. -/
theorem C7_witness :
    read_serialized_data (write_serialized_data
        [("HttpResponse", [("body.html", ['<']), ("other.json", ['x'])]),
         ("ResponseUrl", [("txt", ['u'])])] [])
      = [("HttpResponse", [("body.html", ['<']), ("other.json", ['x'])]),
         ("ResponseUrl", [("txt", ['u'])])] :=
  (C7_directory_roundtrip
    [("HttpResponse", [("body.html", ['<']), ("other.json", ['x'])]),
     ("ResponseUrl", [("txt", ['u'])])] (by decide)).2

end WebPoet
